import Mathlib

/-!
Verification of the `anant` arbitrary-precision analytic-function library
against its natural-language specification.

The C sources are shallowly embedded: `mpf_t` / `cpx_t` values are modelled
as exact rationals (resp. pairs of rationals); machine loops become
structural recursions; callback arguments (`poly`, `func`) and the handful
of genuinely transcendental subroutine results (absolute values, zeta
values, square roots) become explicit oracle parameters, so every theorem
quantifies over all possible values those subroutines could return.
-/

namespace Anant

/-- Exact-rational model of the `cpx_t` arbitrary-precision complex value:
a pair of real (here: rational) components. -/
structure Cpx where
  re : ℚ
  im : ℚ
deriving DecidableEq

/-- `cpx_add`. -/
def cpxAdd (a b : Cpx) : Cpx := ⟨a.re + b.re, a.im + b.im⟩

/-- `cpx_sub`. -/
def cpxSub (a b : Cpx) : Cpx := ⟨a.re - b.re, a.im - b.im⟩

/-- `cpx_neg`. -/
def cpxNeg (a : Cpx) : Cpx := ⟨-a.re, -a.im⟩

/-- `cpx_mul`. -/
def cpxMul (a b : Cpx) : Cpx :=
  ⟨a.re * b.re - a.im * b.im, a.re * b.im + a.im * b.re⟩

/-- `cpx_times_mpf`: scale both components by a real. -/
def cpxScale (a : Cpx) (s : ℚ) : Cpx := ⟨a.re * s, a.im * s⟩

/-- `cpx_div_mpf`: divide both components by a real. -/
def cpxDivScalar (a : Cpx) (s : ℚ) : Cpx := ⟨a.re / s, a.im / s⟩

/-- `cpx_mod_sq`: squared modulus, exactly representable. -/
def cpxModSq (a : Cpx) : ℚ := a.re * a.re + a.im * a.im

/-! ## Root isolation (`mp-zeroiso.c`)

The box data is exact rational arithmetic in the C source
(`mpf_sub`, `mpf_mul_ui`, `mpf_div_ui` on box corners are exact up to
mantissa width), so the embedding is direct.  The boundary predicates use
`cpx_abs` (a square root, not rational); the predicate tests and the
polynomial callback are oracle parameters. -/

/-- `box_radius` of `mp-zeroiso.c`: the difference of the real corner
coordinates and of the imaginary corner coordinates are taken, the larger
of the two is kept, and it is multiplied by 3 and divided by 4. -/
def box_radius (boxll boxur : Cpx) : ℚ :=
  let radius := boxur.re - boxll.re
  let rim := boxur.im - boxll.im
  let larger := if radius < rim then rim else radius
  larger * 3 / 4

/-- The radius formula as the specification words it: three quarters of the
larger of the box half-width and half-height. -/
def spec_box_radius (boxll boxur : Cpx) : ℚ :=
  3 / 4 * max ((boxur.re - boxll.re) / 2) ((boxur.im - boxll.im) / 2)

/-- `box_midpoint`: `cpx_add` of the corners then `cpx_div_ui` by 2. -/
def box_midpoint (b : Cpx × Cpx) : Cpx :=
  ⟨(b.1.re + b.2.re) / 2, (b.1.im + b.2.im) / 2⟩

/-- The corner-swap normalization at the top of `cpx_isolate_roots`
(lines 261-273): if the lower-left corner is right of the upper-right one,
the two real coordinates are exchanged; then, if it is above, the two
imaginary coordinates are exchanged.  These writes go through the caller's
own `boxll`/`boxur` arguments. -/
def isolate_normalize (boxll boxur : Cpx) : Cpx × Cpx :=
  let ll1 := if boxur.re < boxll.re then { boxll with re := boxur.re } else boxll
  let ur1 := if boxur.re < boxll.re then { boxur with re := boxll.re } else boxur
  let ll2 := if ur1.im < ll1.im then { ll1 with im := ur1.im } else ll1
  let ur2 := if ur1.im < ll1.im then { ur1 with im := ll1.im } else ur1
  (ll2, ur2)

/-- Oracle bundle for the root-isolation embedding: the caller's polynomial
callback (`poly(f, deriv, z, args)`, here `poly deriv z`), a model of
`cpx_abs` (whose exact value is irrational), and the stored value of
`sqrt(2)/2` computed once by `test_predicate`. -/
structure IsoOracle where
  poly : ℕ → Cpx → Cpx
  absF : Cpx → ℚ
  hsqrt2 : ℚ

/-- `test_fun` of `mp-zeroiso.c`: accumulates
`|f^(k+offset)(center)| * radius^k / k!` for `k = 1 .. degree-offset`, then
divides by `|f^(offset)(center)|`. -/
def test_fun (o : IsoOracle) (degree : ℕ) (center : Cpx) (radius : ℚ)
    (off : ℕ) : ℚ :=
  let step := fun (acc : ℚ × ℚ × ℚ) (k : ℕ) =>
    let fact := acc.2.1 * k
    let rk := acc.2.2 * radius
    let term := o.absF (o.poly (k + off) center) * rk / fact
    (acc.1 + term, fact, rk)
  let r := (List.range' 1 (degree - off)).foldl step (0, 1, 1)
  r.1 / o.absF (o.poly off center)

/-- `test_predicate`: order-0 compares the bound against 1, order-1 against
the stored `sqrt(2)/2`. -/
def test_predicate (o : IsoOracle) (degree : ℕ) (center : Cpx) (radius : ℚ)
    (off : ℕ) : Bool :=
  if off = 0 then decide (test_fun o degree center radius 0 < 1)
  else decide (test_fun o degree center radius 1 < o.hsqrt2)

/-- `disk_intersect`: `|ca - cb| - ra < rb`. -/
def disk_intersect (o : IsoOracle) (ca : Cpx) (ra : ℚ) (cb : Cpx) (rb : ℚ) :
    Bool :=
  decide (o.absF (cpxSub ca cb) - ra < rb)

/-- `box_split`: the quadrant boxes pushed onto the work list, in stack
order (upper-left, upper-right, lower-left, then the original node mutated
into the lower-right quadrant). -/
def box_split (b : Cpx × Cpx) : List (Cpx × Cpx) :=
  let c := box_midpoint b
  [ (⟨b.1.re, c.im⟩, ⟨c.re, b.2.im⟩)
  , (c, b.2)
  , (b.1, c)
  , (⟨c.re, b.1.im⟩, ⟨b.2.re, c.im⟩) ]

/-- The scan of previously found disks inside `cpx_isolate_roots`: the
caller's arrays are modelled as one array of (center, radius) pairs whose
initial contents are arbitrary (the C loop reads the not-yet-written slot
`nfound`, so that slot's initial contents matter).  Returns the updated
array and count. -/
def disk_record (o : IsoOracle) (disks : Array (Cpx × ℚ)) (nfound : ℕ)
    (mid : Cpx) (rad : ℚ) : Array (Cpx × ℚ) × ℕ :=
  match (List.range (nfound + 1)).find?
      (fun n =>
        let d := disks.getD n (⟨0, 0⟩, 0)
        disk_intersect o d.1 d.2 mid rad) with
  | some n =>
      let d := disks.getD n (⟨0, 0⟩, 0)
      if rad < d.2 then (disks.set! n (mid, rad), nfound)
      else (disks, nfound)
  | none => (disks.set! nfound (mid, rad), nfound + 1)

/-- One pass of the `while` loop of `cpx_isolate_roots` over the head box. -/
def isolate_step (o : IsoOracle) (degree : ℕ) (b : Cpx × Cpx)
    (rest : List (Cpx × Cpx)) (disks : Array (Cpx × ℚ)) (nfound : ℕ) :
    List (Cpx × Cpx) × Array (Cpx × ℚ) × ℕ :=
  let mid := box_midpoint b
  let rad := box_radius b.1 b.2
  if test_predicate o degree mid rad 0 then (rest, disks, nfound)
  else if ! test_predicate o degree mid rad 1 then
    (box_split b ++ rest, disks, nfound)
  else
    let r := disk_record o disks nfound mid (rad * (2 * degree))
    (rest, r.1, r.2)

/-- The work-list loop, fuelled (its termination depends on the predicate
oracles).  Returns `none` if the fuel runs out. -/
def isolate_loop (o : IsoOracle) (degree : ℕ) :
    ℕ → List (Cpx × Cpx) → Array (Cpx × ℚ) → ℕ →
    Option (ℕ × Array (Cpx × ℚ))
  | _, [], disks, nfound => some (nfound, disks)
  | 0, _ :: _, _, _ => none
  | fuel + 1, b :: rest, disks, nfound =>
      let r := isolate_step o degree b rest disks nfound
      isolate_loop o degree fuel r.1 r.2.1 r.2.2

/-- `cpx_isolate_roots`: normalizes the caller's corner arguments in place,
then runs the work-list loop seeded with one box copied from the
(normalized) corners.  The second component of the result is the pair of
values the caller's `boxll`/`boxur` arguments hold after the call: the
normalization swaps are the only writes the function makes to them. -/
def cpx_isolate_roots (o : IsoOracle) (degree : ℕ) (boxll boxur : Cpx)
    (disks0 : Array (Cpx × ℚ)) (fuel : ℕ) :
    Option (ℕ × Array (Cpx × ℚ)) × Cpx × Cpx :=
  let c := isolate_normalize boxll boxur
  (isolate_loop o degree fuel [(c.1, c.2)] disks0 0, c)

/-! ### C1: the test radius -/

/-- C1 (counterexample): for the box with corners 0 and 2+2i, the radius
computed by `box_radius` is not the specification's three quarters of the
larger half-width/half-height (the code computes 3/2, the spec formula
3/4). -/
theorem box_radius_claim_counterexample :
    box_radius ⟨0, 0⟩ ⟨2, 2⟩ ≠ spec_box_radius ⟨0, 0⟩ ⟨2, 2⟩ := by
  have h1 : box_radius ⟨0, 0⟩ ⟨2, 2⟩ = 3 / 2 := by norm_num [box_radius]
  have h2 : spec_box_radius ⟨0, 0⟩ ⟨2, 2⟩ = 3 / 4 := by
    norm_num [spec_box_radius]
  rw [h1, h2]
  norm_num

/-- C1 (amended): the radius computed for a box is three quarters of the
larger of the box's full width and full height — equivalently, 3/2 (not
3/4) of the larger of the half-width and half-height. -/
theorem box_radius_eq :
    ∀ boxll boxur : Cpx,
      box_radius boxll boxur =
        3 / 2 * max ((boxur.re - boxll.re) / 2) ((boxur.im - boxll.im) / 2) := by
  intro ll ur
  simp only [box_radius]
  split_ifs with h
  · rw [max_eq_right (by linarith)]
    ring
  · rw [max_eq_left (by linarith)]
    ring

/-! ### C10: in-place corner normalization -/

/-- C10: after `cpx_isolate_roots`, the caller's corner arguments hold the
normalized corners: componentwise minimum/maximum of what was supplied, a
pure exchange of the offending coordinates (each axis keeps the same pair
of values), and an axis already in order is not written at all.  The
returned corner pair of the embedding is exactly `isolate_normalize`, the
only writes the source function makes to its corner parameters. -/
theorem isolate_roots_normalizes_corners :
    ∀ (o : IsoOracle) (degree : ℕ) (ll ur : Cpx) (disks0 : Array (Cpx × ℚ))
      (fuel : ℕ),
      (cpx_isolate_roots o degree ll ur disks0 fuel).2 =
          isolate_normalize ll ur ∧
      (isolate_normalize ll ur).1.re = min ll.re ur.re ∧
      (isolate_normalize ll ur).2.re = max ll.re ur.re ∧
      (isolate_normalize ll ur).1.im = min ll.im ur.im ∧
      (isolate_normalize ll ur).2.im = max ll.im ur.im ∧
      (ll.re ≤ ur.re →
        (isolate_normalize ll ur).1.re = ll.re ∧
        (isolate_normalize ll ur).2.re = ur.re) ∧
      (ll.im ≤ ur.im →
        (isolate_normalize ll ur).1.im = ll.im ∧
        (isolate_normalize ll ur).2.im = ur.im) := by
  intro o degree ll ur disks0 fuel
  refine ⟨rfl, ?_, ?_, ?_, ?_, fun hre => ⟨?_, ?_⟩, fun him => ⟨?_, ?_⟩⟩ <;>
    simp only [isolate_normalize, min_def, max_def] <;>
    split_ifs <;> simp_all <;> linarith

/-- C10 witness: the theorem applied at a concrete out-of-order box. -/
theorem isolate_roots_normalizes_corners_witness :
    (cpx_isolate_roots ⟨fun _ _ => ⟨1, 0⟩, fun _ => 1, 1⟩ 2 ⟨3, 5⟩ ⟨1, 2⟩
        (Array.mkArray 2 (⟨0, 0⟩, 0)) 0).2 = isolate_normalize ⟨3, 5⟩ ⟨1, 2⟩ ∧
    (3 : ℚ) ≤ 3 ∧
    (isolate_normalize (⟨3, 5⟩ : Cpx) ⟨1, 2⟩).1.re = min 3 1 := by
  refine ⟨(isolate_roots_normalizes_corners ⟨fun _ _ => ⟨1, 0⟩, fun _ => 1, 1⟩
    2 ⟨3, 5⟩ ⟨1, 2⟩ (Array.mkArray 2 (⟨0, 0⟩, 0)) 0).1, le_refl 3, ?_⟩
  exact (isolate_roots_normalizes_corners ⟨fun _ _ => ⟨1, 0⟩, fun _ => 1, 1⟩
    2 ⟨3, 5⟩ ⟨1, 2⟩ (Array.mkArray 2 (⟨0, 0⟩, 0)) 0).2.1

/-! ## Memoization caches (`mp-cache.c` / `mp-cache.h`)

Two of the concrete cache flavours named by the specification are
embedded: the integer linear cache in its thread-hardened revision
(`i_one_d_cache_check` with copy-then-swap growth, `newsize = 1.5*n+2`)
and the real-valued linear cache in its original revision
(`fp_one_d_cache_check` with `realloc` growth, `newsize = 1.5*n+1`,
growth condition `n >= nmax`).  The spin-lock acquire/release brackets
are concurrency-only and have no sequential effect, so they are not
modelled.  Array slots freshly produced by `mpz_init`/`mpf_init` hold
zero. -/

/-- The `i_cache` record: growable array of integers plus the `ticky`
validity markers and the `disabled` flag. -/
structure ICache where
  disabled : Bool
  nmax : ℕ
  cache : Array ℤ
  ticky : Array Bool
deriving DecidableEq

/-- A fresh `DECLARE_I_CACHE` value: nothing allocated. -/
def iCacheEmpty : ICache := ⟨false, 0, #[], #[]⟩

/-- `i_one_d_cache_check` (thread-hardened revision): on a hit
(`n <= nmax && nmax != 0`) returns the marker; otherwise builds
replacement arrays of size `1.5*n+2`, copying slots `0..nmax` when
`nmax != 0` and zero-initializing the rest, and swaps them in. -/
def i_one_d_cache_check (c : ICache) (n : ℕ) : Bool × ICache :=
  if c.disabled then (false, c)
  else if n ≤ c.nmax ∧ c.nmax ≠ 0 then (c.ticky.getD n false, c)
  else
    let newsize := 3 * n / 2 + 2
    let ncache := Array.ofFn (n := newsize) fun en =>
      if c.nmax ≠ 0 ∧ en.1 ≤ c.nmax then c.cache.getD en.1 0 else 0
    let nticky := Array.ofFn (n := newsize) fun en =>
      if c.nmax ≠ 0 ∧ en.1 ≤ c.nmax then c.ticky.getD en.1 false else false
    (false, { c with nmax := newsize - 1, cache := ncache, ticky := nticky })

/-- `i_one_d_cache_store`: writes the value and sets the marker. -/
def i_one_d_cache_store (c : ICache) (val : ℤ) (n : ℕ) : ICache :=
  if c.disabled then c
  else { c with cache := c.cache.set! n val, ticky := c.ticky.set! n true }

/-- `i_one_d_cache_clear`: the loop `for (i=0; i<nmax; i++) ticky[i]=0;`
resets markers at indices strictly below `nmax` only. -/
def i_one_d_cache_clear (c : ICache) : ICache :=
  { c with ticky := (List.range c.nmax).foldl (fun t i => t.set! i false) c.ticky }

/-- The `fp_cache` record: growable array of reals and per-slot stored
decimal precision (0 meaning invalid). -/
structure FpCache where
  nmax : ℕ
  cache : Array ℚ
  precision : Array ℤ
deriving DecidableEq

/-- A fresh `DECLARE_FP_CACHE` value. -/
def fpCacheEmpty : FpCache := ⟨0, #[], #[]⟩

/-- `fp_one_d_cache_check` (original revision): grows whenever
`n >= nmax`, via `realloc` to `1.5*n+1` slots; slots from
`nstart = nmax+1` (or `0` when `nmax == 0`) up are re-initialized to
zero value and zero precision. -/
def fp_one_d_cache_check (c : FpCache) (n : ℕ) : ℤ × FpCache :=
  if c.nmax ≤ n then
    let newsize := 3 * n / 2 + 1
    let nstart := if c.nmax = 0 then 0 else c.nmax + 1
    let ncache := Array.ofFn (n := newsize) fun en =>
      if en.1 < nstart then c.cache.getD en.1 0 else 0
    let nprec := Array.ofFn (n := newsize) fun en =>
      if en.1 < nstart then c.precision.getD en.1 0 else 0
    (0, { nmax := newsize - 1, cache := ncache, precision := nprec })
  else (c.precision.getD n 0, c)

/-- `fp_one_d_cache_store`: writes the value and records its precision. -/
def fp_one_d_cache_store (c : FpCache) (val : ℚ) (n : ℕ) (prec : ℤ) :
    FpCache :=
  { c with cache := c.cache.set! n val, precision := c.precision.set! n prec }

/-- `fp_one_d_cache_clear`: same strict loop bound as the integer
variant; the slot at index `nmax` is not touched. -/
def fp_one_d_cache_clear (c : FpCache) : FpCache :=
  { c with
    precision := (List.range c.nmax).foldl (fun t i => t.set! i 0) c.precision }

/-- `i_triangle_cache_check` (thread-hardened revision): rows `0..nmax`
of the triangle are flattened at indices `n*(n+1)/2 + k`.  On a hit
(`n <= nmax && nmax != 0`) returns the marker at the flattened index.
Otherwise `n` is first bumped to 1 when zero, and replacement arrays of
`(n+1)*(n+2)/2` slots are built: the `memcpy` copies only slots
`0..nmax` of the old triangle (which occupies `(nmax+1)*(nmax+2)/2`
slots), the init loop zeroes rows `nstart..n` — the contiguous index
range from `nstart*(nstart+1)/2` up — and the slots in between keep
whatever the fresh `malloc` held, modelled by the `jc`/`jt` oracles. -/
def i_triangle_cache_check (jc : ℕ → ℤ) (jt : ℕ → Bool) (c : ICache)
    (n k : ℕ) : Bool × ICache :=
  if c.disabled then (false, c)
  else if n ≤ c.nmax ∧ c.nmax ≠ 0 then
    (c.ticky.getD (n * (n + 1) / 2 + k) false, c)
  else
    let n2 := if n = 0 then 1 else n
    let newsize := (n2 + 1) * (n2 + 2) / 2
    let nstart := if c.nmax = 0 then 0 else c.nmax + 1
    let ncache := Array.ofFn (n := newsize) fun en =>
      if c.nmax ≠ 0 ∧ en.1 ≤ c.nmax then c.cache.getD en.1 0
      else if nstart * (nstart + 1) / 2 ≤ en.1 then 0
      else jc en.1
    let nticky := Array.ofFn (n := newsize) fun en =>
      if c.nmax ≠ 0 ∧ en.1 ≤ c.nmax then c.ticky.getD en.1 false
      else if nstart * (nstart + 1) / 2 ≤ en.1 then false
      else jt en.1
    (false, { c with nmax := n2, cache := ncache, ticky := nticky })

/-- `i_triangle_cache_store` (mp-cache.h): writes the value at flattened
index `n*(n+1)/2 + k` and sets the marker; no `disabled` guard. -/
def i_triangle_cache_store (c : ICache) (val : ℤ) (n k : ℕ) : ICache :=
  { c with
    cache := c.cache.set! (n * (n + 1) / 2 + k) val
    ticky := c.ticky.set! (n * (n + 1) / 2 + k) true }

/-- `fp_triangle_cache_check` (same revision): grows via `realloc`, which
keeps the old contents in place, then zeroes rows `nstart..n`; only
slots past the old allocation and below the init range would be
uninitialized (`jq`/`jp`), which cannot happen from a reachable state. -/
def fp_triangle_cache_check (jq : ℕ → ℚ) (jp : ℕ → ℤ) (c : FpCache)
    (n k : ℕ) : ℤ × FpCache :=
  if n ≤ c.nmax ∧ c.nmax ≠ 0 then
    (c.precision.getD (n * (n + 1) / 2 + k) 0, c)
  else
    let n2 := if n = 0 then 1 else n
    let newsize := (n2 + 1) * (n2 + 2) / 2
    let nstart := if c.nmax = 0 then 0 else c.nmax + 1
    let ncache := Array.ofFn (n := newsize) fun en =>
      if nstart * (nstart + 1) / 2 ≤ en.1 then 0
      else if en.1 < c.cache.size then c.cache.getD en.1 0
      else jq en.1
    let nprec := Array.ofFn (n := newsize) fun en =>
      if nstart * (nstart + 1) / 2 ≤ en.1 then 0
      else if en.1 < c.precision.size then c.precision.getD en.1 0
      else jp en.1
    (0, { nmax := n2, cache := ncache, precision := nprec })

/-- `fp_triangle_cache_store` (mp-cache.h): writes the value and its
precision at flattened index `n*(n+1)/2 + k`. -/
def fp_triangle_cache_store (c : FpCache) (val : ℚ) (n k : ℕ)
    (prec : ℤ) : FpCache :=
  { c with
    cache := c.cache.set! (n * (n + 1) / 2 + k) val
    precision := c.precision.set! (n * (n + 1) / 2 + k) prec }

/-! ### C3: clear invalidates every allocated entry -/

/-- C3 (failing input): grow an integer cache by checking index 2
(allocating slots `0..4`, `nmax = 4`), store at the topmost allocated
index 4, and clear.  The backing array keeps its size, but a subsequent
check at index 4 still reports a usable cached value: the clear loop
stops one short of `nmax`.  The same `i < nmax` loop appears in
`fp_one_d_cache_clear`. -/
theorem i_cache_clear_misses_top_slot :
    (let s1 := (i_one_d_cache_check iCacheEmpty 2).2
     let s2 := i_one_d_cache_store s1 7 4
     let s3 := i_one_d_cache_clear s2
     s2.nmax = 4 ∧ s3.ticky.size = 5 ∧ s3.ticky.getD 3 false = false ∧
       (i_one_d_cache_check s3 4).1 = true) := by
  decide

/-! ### C4: growth preserves prior entries -/

/-- The check/store operations the claim quantifies over, for the
integer cache. -/
inductive IOp where
  | chk (n : ℕ)
  | sto (v : ℤ) (n : ℕ)
deriving DecidableEq

/-- Run a sequence of operations on an integer cache. -/
def iRun (ops : List IOp) (c : ICache) : ICache :=
  ops.foldl
    (fun s op =>
      match op with
      | IOp.chk n => (i_one_d_cache_check s n).2
      | IOp.sto v n => i_one_d_cache_store s v n)
    c

/-- The check/store operations for the real-valued cache. -/
inductive FpOp where
  | chk (n : ℕ)
  | sto (v : ℚ) (p : ℤ) (n : ℕ)
deriving DecidableEq

/-- Run a sequence of operations on a real-valued cache. -/
def fpRun (ops : List FpOp) (c : FpCache) : FpCache :=
  ops.foldl
    (fun s op =>
      match op with
      | FpOp.chk n => (fp_one_d_cache_check s n).2
      | FpOp.sto v p n => fp_one_d_cache_store s v n p)
    c

/-- The check/store operations for the integer triangular cache. -/
inductive TOp where
  | chk (n k : ℕ)
  | sto (v : ℤ) (n k : ℕ)
deriving DecidableEq

/-- Run a sequence of operations on an integer triangular cache; the
`jc`/`jt` oracles supply the uninitialized memory each growth's fresh
`malloc` returns. -/
def tRun (jc : ℕ → ℤ) (jt : ℕ → Bool) (ops : List TOp) (c : ICache) :
    ICache :=
  ops.foldl
    (fun s op =>
      match op with
      | TOp.chk n k => (i_triangle_cache_check jc jt s n k).2
      | TOp.sto v n k => i_triangle_cache_store s v n k)
    c

/-- The check/store operations for the real-valued triangular cache. -/
inductive FpTOp where
  | chk (n k : ℕ)
  | sto (v : ℚ) (p : ℤ) (n k : ℕ)
deriving DecidableEq

/-- Run a sequence of operations on a real-valued triangular cache. -/
def ftRun (jq : ℕ → ℚ) (jp : ℕ → ℤ) (ops : List FpTOp) (c : FpCache) :
    FpCache :=
  ops.foldl
    (fun s op =>
      match op with
      | FpTOp.chk n k => (fp_triangle_cache_check jq jp s n k).2
      | FpTOp.sto v p n k => fp_triangle_cache_store s v n k p)
    c

/-- Well-formedness after the first growth: the backing arrays cover
exactly slots `0..nmax` and at least one growth has happened
(`nmax >= 1`). -/
def ICache.Wf (c : ICache) : Prop :=
  1 ≤ c.nmax ∧ c.cache.size = c.nmax + 1 ∧ c.ticky.size = c.nmax + 1

/-- Well-formedness after the first growth, real-valued cache. -/
def FpCache.Wf (c : FpCache) : Prop :=
  1 ≤ c.nmax ∧ c.cache.size = c.nmax + 1 ∧ c.precision.size = c.nmax + 1

/-- Triangular well-formedness after the first growth: the arrays hold
exactly the triangle of rows `0..nmax`. -/
def ICache.TWf (c : ICache) : Prop :=
  1 ≤ c.nmax ∧ c.cache.size = (c.nmax + 1) * (c.nmax + 2) / 2 ∧
    c.ticky.size = (c.nmax + 1) * (c.nmax + 2) / 2

/-- Triangular well-formedness, real-valued cache. -/
def FpCache.TWf (c : FpCache) : Prop :=
  1 ≤ c.nmax ∧ c.cache.size = (c.nmax + 1) * (c.nmax + 2) / 2 ∧
    c.precision.size = (c.nmax + 1) * (c.nmax + 2) / 2

instance : DecidablePred ICache.Wf := fun c => by
  unfold ICache.Wf
  infer_instance

instance : DecidablePred FpCache.Wf := fun c => by
  unfold FpCache.Wf
  infer_instance

instance : DecidablePred ICache.TWf := fun c => by
  unfold ICache.TWf
  infer_instance

instance : DecidablePred FpCache.TWf := fun c => by
  unfold FpCache.TWf
  infer_instance

theorem triSize_mono {a b : ℕ} (h : a ≤ b) :
    (a + 1) * (a + 2) / 2 ≤ (b + 1) * (b + 2) / 2 :=
  Nat.div_le_div_right (Nat.mul_le_mul (by omega) (by omega))

theorem triSize_lt {a : ℕ} : a < (a + 1) * (a + 2) / 2 := by
  have h2 : a + 1 ≤ (a + 1) * (a + 2) / 2 := by
    rw [Nat.le_div_iff_mul_le (by norm_num)]
    exact Nat.mul_le_mul (Nat.le_refl _) (by omega)
  exact lt_of_lt_of_le (Nat.lt_succ_self a) h2

theorem getD_ofFn {α : Type} {m : ℕ} (f : Fin m → α) (i : ℕ) (d : α)
    (h : i < m) : (Array.ofFn f).getD i d = f ⟨i, h⟩ := by
  rw [Array.getD_eq_get?, Array.getElem?_ofFn, dif_pos h, Option.getD_some]

theorem getD_set!_ne {α : Type} (a : Array α) (i j : ℕ) (v d : α)
    (hij : i ≠ j) : (a.set! i v).getD j d = a.getD j d := by
  rw [Array.set!_is_setD]
  unfold Array.setD
  split
  · rw [Array.getD_eq_get?, Array.getD_eq_get?, Array.get?_set_ne]
    exact hij
  · rfl

theorem i_check_preserves (c : ICache) (n : ℕ) (h : c.Wf) :
    (i_one_d_cache_check c n).2.Wf ∧
      c.nmax ≤ (i_one_d_cache_check c n).2.nmax ∧
      ∀ i ≤ c.nmax,
        (i_one_d_cache_check c n).2.cache.getD i 0 = c.cache.getD i 0 ∧
        (i_one_d_cache_check c n).2.ticky.getD i false = c.ticky.getD i false := by
  obtain ⟨h1, hc, ht⟩ := h
  simp only [i_one_d_cache_check]
  split_ifs with hd hn
  · exact ⟨⟨h1, hc, ht⟩, le_refl _, fun i _ => ⟨rfl, rfl⟩⟩
  · exact ⟨⟨h1, hc, ht⟩, le_refl _, fun i _ => ⟨rfl, rfl⟩⟩
  · have hnm : c.nmax < n := by
      rcases not_and_or.mp hn with h' | h'
      · omega
      · exact absurd (not_not.mp h') (by omega)
    refine ⟨⟨by simp; all_goals omega, by simp; all_goals omega,
      by simp; all_goals omega⟩, by simp; all_goals omega, fun i hi => ?_⟩
    have hilt : i < 3 * n / 2 + 2 := by omega
    constructor
    · show (Array.ofFn _).getD i 0 = _
      rw [getD_ofFn _ i 0 hilt, if_pos ⟨by omega, hi⟩]
    · show (Array.ofFn _).getD i false = _
      rw [getD_ofFn _ i false hilt, if_pos ⟨by omega, hi⟩]

theorem i_store_preserves (c : ICache) (v : ℤ) (n : ℕ) (h : c.Wf) :
    (i_one_d_cache_store c v n).Wf ∧
      c.nmax ≤ (i_one_d_cache_store c v n).nmax ∧
      ∀ i ≤ c.nmax, i ≠ n →
        (i_one_d_cache_store c v n).cache.getD i 0 = c.cache.getD i 0 ∧
        (i_one_d_cache_store c v n).ticky.getD i false = c.ticky.getD i false := by
  obtain ⟨h1, hc, ht⟩ := h
  simp only [i_one_d_cache_store]
  split_ifs with hd
  · exact ⟨⟨h1, hc, ht⟩, le_refl _, fun i _ _ => ⟨rfl, rfl⟩⟩
  · refine ⟨⟨h1, by simpa using hc, by simpa using ht⟩,
      le_refl _, fun i _ hin => ?_⟩
    exact ⟨getD_set!_ne _ n i v 0 (fun he => hin he.symm),
      getD_set!_ne _ n i true false (fun he => hin he.symm)⟩

theorem fp_check_preserves (c : FpCache) (n : ℕ) (h : c.Wf) :
    (fp_one_d_cache_check c n).2.Wf ∧
      c.nmax ≤ (fp_one_d_cache_check c n).2.nmax ∧
      ∀ i ≤ c.nmax,
        (fp_one_d_cache_check c n).2.cache.getD i 0 = c.cache.getD i 0 ∧
        (fp_one_d_cache_check c n).2.precision.getD i 0 =
          c.precision.getD i 0 := by
  obtain ⟨h1, hc, ht⟩ := h
  simp only [fp_one_d_cache_check]
  split_ifs with hn h0
  · exact absurd h0 (by omega)
  · refine ⟨⟨by simp; all_goals omega, by simp; all_goals omega,
      by simp; all_goals omega⟩, by simp; all_goals omega, fun i hi => ?_⟩
    have hilt : i < 3 * n / 2 + 1 := by omega
    constructor
    · show (Array.ofFn _).getD i 0 = _
      rw [getD_ofFn _ i 0 hilt, if_pos (show i < c.nmax + 1 by omega)]
    · show (Array.ofFn _).getD i 0 = _
      rw [getD_ofFn _ i 0 hilt, if_pos (show i < c.nmax + 1 by omega)]
  · exact ⟨⟨h1, hc, ht⟩, le_refl _, fun i _ => ⟨rfl, rfl⟩⟩

theorem fp_store_preserves (c : FpCache) (v : ℚ) (p : ℤ) (n : ℕ) (h : c.Wf) :
    (fp_one_d_cache_store c v n p).Wf ∧
      c.nmax ≤ (fp_one_d_cache_store c v n p).nmax ∧
      ∀ i ≤ c.nmax, i ≠ n →
        (fp_one_d_cache_store c v n p).cache.getD i 0 = c.cache.getD i 0 ∧
        (fp_one_d_cache_store c v n p).precision.getD i 0 =
          c.precision.getD i 0 := by
  obtain ⟨h1, hc, ht⟩ := h
  simp only [fp_one_d_cache_store]
  refine ⟨⟨h1, by simpa using hc, by simpa using ht⟩,
    le_refl _, fun i _ hin => ?_⟩
  exact ⟨getD_set!_ne _ n i v 0 (fun he => hin he.symm),
    getD_set!_ne _ n i p 0 (fun he => hin he.symm)⟩

theorem tri_check_preserves (jc : ℕ → ℤ) (jt : ℕ → Bool) (c : ICache)
    (n k : ℕ) (h : c.TWf) :
    (i_triangle_cache_check jc jt c n k).2.TWf ∧
      c.nmax ≤ (i_triangle_cache_check jc jt c n k).2.nmax ∧
      ∀ i ≤ c.nmax,
        (i_triangle_cache_check jc jt c n k).2.cache.getD i 0 =
          c.cache.getD i 0 ∧
        (i_triangle_cache_check jc jt c n k).2.ticky.getD i false =
          c.ticky.getD i false := by
  obtain ⟨h1, hc, ht⟩ := h
  have hnm0 : c.nmax ≠ 0 := by omega
  simp only [i_triangle_cache_check]
  by_cases hd : c.disabled
  · simp only [if_pos hd]
    exact ⟨⟨h1, hc, ht⟩, le_refl _, fun i _ => by simp⟩
  simp only [if_neg hd]
  by_cases hhit : n ≤ c.nmax ∧ c.nmax ≠ 0
  · simp only [if_pos hhit]
    exact ⟨⟨h1, hc, ht⟩, le_refl _, fun i _ => by simp⟩
  simp only [if_neg hhit]
  have hgt : c.nmax < n := by
    rcases not_and_or.mp hhit with h' | h'
    · omega
    · exact absurd hnm0 h'
  have hn0 : ¬ n = 0 := by omega
  have hEq : (if n = 0 then 1 else n) = n := if_neg hn0
  refine ⟨⟨?_, by simp, by simp⟩, ?_, fun i hi => ?_⟩
  · show 1 ≤ (if n = 0 then 1 else n)
    rw [hEq]
    omega
  · show c.nmax ≤ (if n = 0 then 1 else n)
    rw [hEq]
    omega
  have hilt : i < ((if n = 0 then 1 else n) + 1) *
      ((if n = 0 then 1 else n) + 2) / 2 := by
    rw [hEq]
    exact lt_of_le_of_lt hi (lt_trans hgt triSize_lt)
  constructor
  · show (Array.ofFn _).getD i 0 = _
    rw [getD_ofFn _ i 0 hilt, if_pos ⟨hnm0, hi⟩]
  · show (Array.ofFn _).getD i false = _
    rw [getD_ofFn _ i false hilt, if_pos ⟨hnm0, hi⟩]

theorem tri_store_preserves (c : ICache) (v : ℤ) (m kk : ℕ) (h : c.TWf) :
    (i_triangle_cache_store c v m kk).TWf ∧
      c.nmax ≤ (i_triangle_cache_store c v m kk).nmax ∧
      ∀ i, i ≠ m * (m + 1) / 2 + kk →
        (i_triangle_cache_store c v m kk).cache.getD i 0 =
          c.cache.getD i 0 ∧
        (i_triangle_cache_store c v m kk).ticky.getD i false =
          c.ticky.getD i false := by
  obtain ⟨h1, hc, ht⟩ := h
  simp only [i_triangle_cache_store]
  refine ⟨⟨h1, by simpa using hc, by simpa using ht⟩,
    le_refl _, fun i hin => ?_⟩
  exact ⟨getD_set!_ne _ _ i v 0 (fun he => hin he.symm),
    getD_set!_ne _ _ i true false (fun he => hin he.symm)⟩

theorem fp_tri_check_preserves (jq : ℕ → ℚ) (jp : ℕ → ℤ) (c : FpCache)
    (n k : ℕ) (h : c.TWf) :
    (fp_triangle_cache_check jq jp c n k).2.TWf ∧
      c.nmax ≤ (fp_triangle_cache_check jq jp c n k).2.nmax ∧
      ∀ i < (c.nmax + 1) * (c.nmax + 2) / 2,
        (fp_triangle_cache_check jq jp c n k).2.cache.getD i 0 =
          c.cache.getD i 0 ∧
        (fp_triangle_cache_check jq jp c n k).2.precision.getD i 0 =
          c.precision.getD i 0 := by
  obtain ⟨h1, hc, ht⟩ := h
  have hnm0 : c.nmax ≠ 0 := by omega
  simp only [fp_triangle_cache_check]
  by_cases hhit : n ≤ c.nmax ∧ c.nmax ≠ 0
  · simp only [if_pos hhit]
    exact ⟨⟨h1, hc, ht⟩, le_refl _, fun i _ => by simp⟩
  simp only [if_neg hhit]
  have hgt : c.nmax < n := by
    rcases not_and_or.mp hhit with h' | h'
    · omega
    · exact absurd hnm0 h'
  have hn0 : ¬ n = 0 := by omega
  have hEq : (if n = 0 then 1 else n) = n := if_neg hn0
  have hEq2 : (if c.nmax = 0 then 0 else c.nmax + 1) = c.nmax + 1 :=
    if_neg hnm0
  refine ⟨⟨?_, by simp, by simp⟩, ?_, fun i hi => ?_⟩
  · show 1 ≤ (if n = 0 then 1 else n)
    rw [hEq]
    omega
  · show c.nmax ≤ (if n = 0 then 1 else n)
    rw [hEq]
    omega
  have hilt : i < ((if n = 0 then 1 else n) + 1) *
      ((if n = 0 then 1 else n) + 2) / 2 := by
    rw [hEq]
    exact lt_of_lt_of_le hi (triSize_mono (le_of_lt hgt))
  have hni : ¬ (if c.nmax = 0 then 0 else c.nmax + 1) *
      ((if c.nmax = 0 then 0 else c.nmax + 1) + 1) / 2 ≤ i := by
    rw [hEq2]
    intro hle
    have he3 : (c.nmax + 1) * (c.nmax + 1 + 1) / 2 =
        (c.nmax + 1) * (c.nmax + 2) / 2 := rfl
    rw [he3] at hle
    exact absurd hi (not_lt.mpr hle)
  constructor
  · show (Array.ofFn _).getD i 0 = _
    rw [getD_ofFn _ i 0 hilt, if_neg hni,
      if_pos (show i < c.cache.size by rw [hc]; exact hi)]
  · show (Array.ofFn _).getD i 0 = _
    rw [getD_ofFn _ i 0 hilt, if_neg hni,
      if_pos (show i < c.precision.size by rw [ht]; exact hi)]

theorem fp_tri_store_preserves (c : FpCache) (v : ℚ) (p : ℤ) (m kk : ℕ)
    (h : c.TWf) :
    (fp_triangle_cache_store c v m kk p).TWf ∧
      c.nmax ≤ (fp_triangle_cache_store c v m kk p).nmax ∧
      ∀ i, i ≠ m * (m + 1) / 2 + kk →
        (fp_triangle_cache_store c v m kk p).cache.getD i 0 =
          c.cache.getD i 0 ∧
        (fp_triangle_cache_store c v m kk p).precision.getD i 0 =
          c.precision.getD i 0 := by
  obtain ⟨h1, hc, ht⟩ := h
  simp only [fp_triangle_cache_store]
  refine ⟨⟨h1, by simpa using hc, by simpa using ht⟩,
    le_refl _, fun i hin => ?_⟩
  exact ⟨getD_set!_ne _ _ i v 0 (fun he => hin he.symm),
    getD_set!_ne _ _ i p 0 (fun he => hin he.symm)⟩

/-- Growth of the thread-hardened integer triangular cache loses every
slot of the old triangle past flattened index `nmax`: those slots of the
replacement arrays come from uninitialized memory. -/
theorem tri_growth_junk (jc : ℕ → ℤ) (jt : ℕ → Bool) (c : ICache)
    (n k : ℕ) (h : c.TWf) (hd : c.disabled = false) (hgt : c.nmax < n) :
    ∀ i, c.nmax < i → i < (c.nmax + 1) * (c.nmax + 2) / 2 →
      (i_triangle_cache_check jc jt c n k).2.cache.getD i 0 = jc i ∧
      (i_triangle_cache_check jc jt c n k).2.ticky.getD i false = jt i := by
  obtain ⟨h1, hc, ht⟩ := h
  have hnm0 : c.nmax ≠ 0 := by omega
  have hn0 : ¬ n = 0 := by omega
  have hhit : ¬ (n ≤ c.nmax ∧ c.nmax ≠ 0) := by
    intro hx
    omega
  have hdd : c.disabled ≠ true := by simp [hd]
  simp only [i_triangle_cache_check, if_neg hdd, if_neg hhit]
  intro i hgti hilt
  have hEq : (if n = 0 then 1 else n) = n := if_neg hn0
  have hEq2 : (if c.nmax = 0 then 0 else c.nmax + 1) = c.nmax + 1 :=
    if_neg hnm0
  have hilt2 : i < ((if n = 0 then 1 else n) + 1) *
      ((if n = 0 then 1 else n) + 2) / 2 := by
    rw [hEq]
    exact lt_of_lt_of_le hilt (triSize_mono (le_of_lt hgt))
  have hno : ¬ (c.nmax ≠ 0 ∧ i ≤ c.nmax) := by
    intro hx
    omega
  have hni : ¬ (if c.nmax = 0 then 0 else c.nmax + 1) *
      ((if c.nmax = 0 then 0 else c.nmax + 1) + 1) / 2 ≤ i := by
    rw [hEq2]
    intro hle
    have he3 : (c.nmax + 1) * (c.nmax + 1 + 1) / 2 =
        (c.nmax + 1) * (c.nmax + 2) / 2 := rfl
    rw [he3] at hle
    exact absurd hilt (not_lt.mpr hle)
  constructor
  · show (Array.ofFn _).getD i 0 = _
    rw [getD_ofFn _ i 0 hilt2, if_neg hno, if_neg hni]
  · show (Array.ofFn _).getD i false = _
    rw [getD_ofFn _ i false hilt2, if_neg hno, if_neg hni]

theorem iRun_preserves (ops : List IOp) :
    ∀ s : ICache, s.Wf →
      (iRun ops s).Wf ∧ s.nmax ≤ (iRun ops s).nmax ∧
      ∀ i ≤ s.nmax, (∀ v, IOp.sto v i ∉ ops) →
        (iRun ops s).cache.getD i 0 = s.cache.getD i 0 ∧
        (iRun ops s).ticky.getD i false = s.ticky.getD i false := by
  induction ops with
  | nil => exact fun s hs => ⟨hs, le_refl _, fun i _ _ => ⟨rfl, rfl⟩⟩
  | cons op rest ih =>
    intro s hs
    cases op with
    | chk n =>
      obtain ⟨hw, hm, hp⟩ := i_check_preserves s n hs
      obtain ⟨hw2, hm2, hp2⟩ := ih _ hw
      refine ⟨hw2, le_trans hm hm2, fun i hi hnot => ?_⟩
      obtain ⟨e1, e2⟩ := hp i hi
      obtain ⟨f1, f2⟩ := hp2 i (le_trans hi hm)
        (fun v hv => hnot v (List.mem_cons_of_mem _ hv))
      exact ⟨f1.trans e1, f2.trans e2⟩
    | sto v n =>
      obtain ⟨hw, hm, hp⟩ := i_store_preserves s v n hs
      obtain ⟨hw2, hm2, hp2⟩ := ih _ hw
      refine ⟨hw2, le_trans hm hm2, fun i hi hnot => ?_⟩
      have hne : i ≠ n :=
        fun he => hnot v (by rw [he]; exact List.mem_cons_self _ _)
      obtain ⟨e1, e2⟩ := hp i hi hne
      obtain ⟨f1, f2⟩ := hp2 i (le_trans hi hm)
        (fun w hw' => hnot w (List.mem_cons_of_mem _ hw'))
      exact ⟨f1.trans e1, f2.trans e2⟩

theorem fpRun_preserves (ops : List FpOp) :
    ∀ s : FpCache, s.Wf →
      (fpRun ops s).Wf ∧ s.nmax ≤ (fpRun ops s).nmax ∧
      ∀ i ≤ s.nmax, (∀ v p, FpOp.sto v p i ∉ ops) →
        (fpRun ops s).cache.getD i 0 = s.cache.getD i 0 ∧
        (fpRun ops s).precision.getD i 0 = s.precision.getD i 0 := by
  induction ops with
  | nil => exact fun s hs => ⟨hs, le_refl _, fun i _ _ => ⟨rfl, rfl⟩⟩
  | cons op rest ih =>
    intro s hs
    cases op with
    | chk n =>
      obtain ⟨hw, hm, hp⟩ := fp_check_preserves s n hs
      obtain ⟨hw2, hm2, hp2⟩ := ih _ hw
      refine ⟨hw2, le_trans hm hm2, fun i hi hnot => ?_⟩
      obtain ⟨e1, e2⟩ := hp i hi
      obtain ⟨f1, f2⟩ := hp2 i (le_trans hi hm)
        (fun v p hv => hnot v p (List.mem_cons_of_mem _ hv))
      exact ⟨f1.trans e1, f2.trans e2⟩
    | sto v p n =>
      obtain ⟨hw, hm, hp⟩ := fp_store_preserves s v p n hs
      obtain ⟨hw2, hm2, hp2⟩ := ih _ hw
      refine ⟨hw2, le_trans hm hm2, fun i hi hnot => ?_⟩
      have hne : i ≠ n :=
        fun he => hnot v p (by rw [he]; exact List.mem_cons_self _ _)
      obtain ⟨e1, e2⟩ := hp i hi hne
      obtain ⟨f1, f2⟩ := hp2 i (le_trans hi hm)
        (fun w q hw' => hnot w q (List.mem_cons_of_mem _ hw'))
      exact ⟨f1.trans e1, f2.trans e2⟩

theorem tRun_preserves (jc : ℕ → ℤ) (jt : ℕ → Bool) (ops : List TOp) :
    ∀ s : ICache, s.TWf →
      (tRun jc jt ops s).TWf ∧ s.nmax ≤ (tRun jc jt ops s).nmax ∧
      ∀ i ≤ s.nmax,
        (∀ v m kk, TOp.sto v m kk ∈ ops → m * (m + 1) / 2 + kk ≠ i) →
        (tRun jc jt ops s).cache.getD i 0 = s.cache.getD i 0 ∧
        (tRun jc jt ops s).ticky.getD i false = s.ticky.getD i false := by
  induction ops with
  | nil => exact fun s hs => ⟨hs, le_refl _, fun i _ _ => ⟨rfl, rfl⟩⟩
  | cons op rest ih =>
    intro s hs
    cases op with
    | chk n k =>
      obtain ⟨hw, hm, hp⟩ := tri_check_preserves jc jt s n k hs
      obtain ⟨hw2, hm2, hp2⟩ := ih _ hw
      refine ⟨hw2, le_trans hm hm2, fun i hi hnot => ?_⟩
      obtain ⟨e1, e2⟩ := hp i hi
      obtain ⟨f1, f2⟩ := hp2 i (le_trans hi hm)
        (fun v m kk hv => hnot v m kk (List.mem_cons_of_mem _ hv))
      exact ⟨f1.trans e1, f2.trans e2⟩
    | sto v n k =>
      obtain ⟨hw, hm, hp⟩ := tri_store_preserves s v n k hs
      obtain ⟨hw2, hm2, hp2⟩ := ih _ hw
      refine ⟨hw2, le_trans hm hm2, fun i hi hnot => ?_⟩
      have hne : i ≠ n * (n + 1) / 2 + k :=
        fun he => hnot v n k (List.mem_cons_self _ _) he.symm
      obtain ⟨e1, e2⟩ := hp i hne
      obtain ⟨f1, f2⟩ := hp2 i (le_trans hi hm)
        (fun w m kk hw' => hnot w m kk (List.mem_cons_of_mem _ hw'))
      exact ⟨f1.trans e1, f2.trans e2⟩

theorem ftRun_preserves (jq : ℕ → ℚ) (jp : ℕ → ℤ) (ops : List FpTOp) :
    ∀ s : FpCache, s.TWf →
      (ftRun jq jp ops s).TWf ∧ s.nmax ≤ (ftRun jq jp ops s).nmax ∧
      ∀ i < (s.nmax + 1) * (s.nmax + 2) / 2,
        (∀ v p m kk, FpTOp.sto v p m kk ∈ ops → m * (m + 1) / 2 + kk ≠ i) →
        (ftRun jq jp ops s).cache.getD i 0 = s.cache.getD i 0 ∧
        (ftRun jq jp ops s).precision.getD i 0 = s.precision.getD i 0 := by
  induction ops with
  | nil => exact fun s hs => ⟨hs, le_refl _, fun i _ _ => ⟨rfl, rfl⟩⟩
  | cons op rest ih =>
    intro s hs
    cases op with
    | chk n k =>
      obtain ⟨hw, hm, hp⟩ := fp_tri_check_preserves jq jp s n k hs
      obtain ⟨hw2, hm2, hp2⟩ := ih _ hw
      refine ⟨hw2, le_trans hm hm2, fun i hi hnot => ?_⟩
      obtain ⟨e1, e2⟩ := hp i hi
      obtain ⟨f1, f2⟩ := hp2 i (lt_of_lt_of_le hi (triSize_mono hm))
        (fun v p m kk hv => hnot v p m kk (List.mem_cons_of_mem _ hv))
      exact ⟨f1.trans e1, f2.trans e2⟩
    | sto v p n k =>
      obtain ⟨hw, hm, hp⟩ := fp_tri_store_preserves s v p n k hs
      obtain ⟨hw2, hm2, hp2⟩ := ih _ hw
      refine ⟨hw2, le_trans hm hm2, fun i hi hnot => ?_⟩
      have hne : i ≠ n * (n + 1) / 2 + k :=
        fun he => hnot v p n k (List.mem_cons_self _ _) he.symm
      obtain ⟨e1, e2⟩ := hp i hne
      obtain ⟨f1, f2⟩ := hp2 i (lt_of_lt_of_le hi (triSize_mono hm))
        (fun w q m kk hw' => hnot w q m kk (List.mem_cons_of_mem _ hw'))
      exact ⟨f1.trans e1, f2.trans e2⟩

/-- Uninitialized-memory oracles for the concrete runs below: a fresh
allocation holding the sentinel value 99 with all markers clear. -/
def junkCex : ℕ → ℤ := fun _ => 99

def junkTex : ℕ → Bool := fun _ => false

def junkQex : ℕ → ℚ := fun _ => 99

def junkPex : ℕ → ℤ := fun _ => -1

/-- C4 (counterexample), two independent refutations of the unrestricted
claim.  Linear: starting from a fresh real-valued cache, `check 0`
allocates one slot but leaves `nmax = 0`; a value stored at index 0 is
then valid (precision 20), yet the growth triggered by the next `check 3`
re-initializes slot 0, losing the value and its precision marker.
Triangular (thread-hardened integer variant): `check 2 0` allocates the
rows `0..2` (`nmax = 2`, six slots); a value stored at row 2, column 0
(flattened index 3) is then marked valid, yet the growth triggered by
`check 3 0` copies only slots `0..2` — the `memcpy` moves `nmax+1`
elements of the `(nmax+1)(nmax+2)/2`-slot triangle — so the entry is
replaced by uninitialized memory (here the sentinel 99 with marker
clear) and a subsequent `check 2 0` misses. -/
theorem cache_growth_loses_entries :
    ((let s1 := (fp_one_d_cache_check fpCacheEmpty 0).2
      let s2 := fp_one_d_cache_store s1 7 0 20
      let s3 := (fp_one_d_cache_check s2 3).2
      s2.precision.getD 0 0 = 20 ∧ s2.cache.getD 0 0 = 7 ∧
        s2.nmax = 0 ∧ s3.nmax = 4 ∧
        s3.precision.getD 0 0 = 0 ∧ s3.cache.getD 0 0 = 0) ∧
     (let t1 := (i_triangle_cache_check junkCex junkTex iCacheEmpty 2 0).2
      let t2 := i_triangle_cache_store t1 7 2 0
      let t3 := (i_triangle_cache_check junkCex junkTex t2 3 0).2
      t2.nmax = 2 ∧ t2.cache.size = 6 ∧
        (i_triangle_cache_check junkCex junkTex t2 2 0).1 = true ∧
        t2.cache.getD 3 0 = 7 ∧
        t3.nmax = 3 ∧ t3.cache.size = 10 ∧
        t3.ticky.getD 3 false = false ∧ t3.cache.getD 3 0 = 99 ∧
        (i_triangle_cache_check junkCex junkTex t3 2 0).1 = false)) := by
  decide

/-- C4 (amended): `nmax` never decreases.  Once a linear cache has grown
at least once (`nmax >= 1`, with backing arrays covering slots
`0..nmax`), any further sequence of check/store operations preserves
every entry at an index not overwritten by a store, with its value and
its validity/precision marker — linear growth copies prior contents.
(In the degenerate freshly-allocated `nmax = 0` state of the real-valued
cache the counterexample above shows the original claim fails at index
0.)  For the realloc-based real-valued triangular cache the same holds
for the whole triangle of rows `0..nmax`.  For the thread-hardened
integer triangular cache only the flattened indices `0..nmax` are
preserved: growth replaces every remaining slot of the old triangle by
uninitialized memory, so every still-valid entry at a flattened index
above `nmax` is lost, as the counterexample above exhibits. -/
theorem cache_growth_preserves_entries :
    (∀ (ops : List IOp) (s : ICache), s.Wf →
      s.nmax ≤ (iRun ops s).nmax ∧
      ∀ i ≤ s.nmax, (∀ v, IOp.sto v i ∉ ops) →
        (iRun ops s).cache.getD i 0 = s.cache.getD i 0 ∧
        (iRun ops s).ticky.getD i false = s.ticky.getD i false) ∧
    (∀ (ops : List FpOp) (s : FpCache), s.Wf →
      s.nmax ≤ (fpRun ops s).nmax ∧
      ∀ i ≤ s.nmax, (∀ v p, FpOp.sto v p i ∉ ops) →
        (fpRun ops s).cache.getD i 0 = s.cache.getD i 0 ∧
        (fpRun ops s).precision.getD i 0 = s.precision.getD i 0) ∧
    (∀ (jq : ℕ → ℚ) (jp : ℕ → ℤ) (ops : List FpTOp) (s : FpCache), s.TWf →
      s.nmax ≤ (ftRun jq jp ops s).nmax ∧
      ∀ i < (s.nmax + 1) * (s.nmax + 2) / 2,
        (∀ v p m kk, FpTOp.sto v p m kk ∈ ops → m * (m + 1) / 2 + kk ≠ i) →
        (ftRun jq jp ops s).cache.getD i 0 = s.cache.getD i 0 ∧
        (ftRun jq jp ops s).precision.getD i 0 = s.precision.getD i 0) ∧
    (∀ (jc : ℕ → ℤ) (jt : ℕ → Bool) (ops : List TOp) (s : ICache), s.TWf →
      s.nmax ≤ (tRun jc jt ops s).nmax ∧
      ∀ i ≤ s.nmax,
        (∀ v m kk, TOp.sto v m kk ∈ ops → m * (m + 1) / 2 + kk ≠ i) →
        (tRun jc jt ops s).cache.getD i 0 = s.cache.getD i 0 ∧
        (tRun jc jt ops s).ticky.getD i false = s.ticky.getD i false) ∧
    (∀ (jc : ℕ → ℤ) (jt : ℕ → Bool) (s : ICache) (n k : ℕ),
      s.TWf → s.disabled = false → s.nmax < n →
      ∀ i, s.nmax < i → i < (s.nmax + 1) * (s.nmax + 2) / 2 →
        (i_triangle_cache_check jc jt s n k).2.cache.getD i 0 = jc i ∧
        (i_triangle_cache_check jc jt s n k).2.ticky.getD i false = jt i) :=
  ⟨fun ops s hs =>
    ⟨(iRun_preserves ops s hs).2.1, (iRun_preserves ops s hs).2.2⟩,
   fun ops s hs =>
    ⟨(fpRun_preserves ops s hs).2.1, (fpRun_preserves ops s hs).2.2⟩,
   fun jq jp ops s hs =>
    ⟨(ftRun_preserves jq jp ops s hs).2.1, (ftRun_preserves jq jp ops s hs).2.2⟩,
   fun jc jt ops s hs =>
    ⟨(tRun_preserves jc jt ops s hs).2.1, (tRun_preserves jc jt ops s hs).2.2⟩,
   fun jc jt s n k hs hd hn => tri_growth_junk jc jt s n k hs hd hn⟩

/-- A concrete well-formed integer cache for the C4 witness. -/
def icW : ICache := ⟨false, 4, Array.mkArray 5 7, Array.mkArray 5 true⟩

/-- A concrete well-formed integer triangular cache (rows `0..2`). -/
def tcW : ICache := ⟨false, 2, Array.mkArray 6 7, Array.mkArray 6 true⟩

/-- A concrete well-formed real-valued triangular cache (rows `0..2`). -/
def fcW : FpCache := ⟨2, Array.mkArray 6 7, Array.mkArray 6 20⟩

/-- C4 witness: the amended theorem applied to concrete grown caches of
each layout and concrete growth-triggering operation sequences, plus the
uninitialized-slot characterization at a concrete lost index. -/
theorem cache_growth_preserves_entries_witness :
    (icW.nmax ≤ (iRun [IOp.chk 10] icW).nmax ∧
      (iRun [IOp.chk 10] icW).cache.getD 2 0 = icW.cache.getD 2 0 ∧
      (iRun [IOp.chk 10] icW).ticky.getD 2 false = icW.ticky.getD 2 false) ∧
    (fcW.nmax ≤ (ftRun junkQex junkPex [FpTOp.chk 5 0] fcW).nmax ∧
      (ftRun junkQex junkPex [FpTOp.chk 5 0] fcW).cache.getD 4 0 =
        fcW.cache.getD 4 0) ∧
    (tcW.nmax ≤ (tRun junkCex junkTex [TOp.chk 5 0] tcW).nmax ∧
      (tRun junkCex junkTex [TOp.chk 5 0] tcW).cache.getD 1 0 =
        tcW.cache.getD 1 0) ∧
    (i_triangle_cache_check junkCex junkTex tcW 3 0).2.cache.getD 4 0 =
      junkCex 4 := by
  have h1 := cache_growth_preserves_entries.1 [IOp.chk 10] icW
    ⟨by norm_num [icW], by simp [icW], by simp [icW]⟩
  have h3 := cache_growth_preserves_entries.2.2.1 junkQex junkPex
    [FpTOp.chk 5 0] fcW ⟨by norm_num [fcW], by simp [fcW], by simp [fcW]⟩
  have h4 := cache_growth_preserves_entries.2.2.2.1 junkCex junkTex
    [TOp.chk 5 0] tcW ⟨by norm_num [tcW], by simp [tcW], by simp [tcW]⟩
  have h5 := cache_growth_preserves_entries.2.2.2.2 junkCex junkTex tcW 3 0
    ⟨by norm_num [tcW], by simp [tcW], by simp [tcW]⟩ rfl
    (by norm_num [tcW]) 4 (by norm_num [tcW]) (by norm_num [tcW])
  refine ⟨⟨h1.1, h1.2 2 (by norm_num [icW]) ?_⟩,
    ⟨h3.1, (h3.2 4 (by norm_num [fcW]) ?_).1⟩,
    ⟨h4.1, (h4.2 1 (by norm_num [tcW]) ?_).1⟩, h5.1⟩
  · intro v hv
    simp at hv
  · intro v p m kk hv
    simp at hv
  · intro v m kk hv
    simp at hv

/-! ## Disk cache (`db-cache.c`)

A database file holds, per index, a `val[idx]` record (the decimal string
rendering of the value, modelled as the rational it denotes) and a
`prec[idx]` record (the stored integer precision).  The file system maps
database names (opaque identifiers, modelled as naturals) to files;
`dbopen` of an absent name read-only is a miss, `dbopen` for writing
creates the file.  `gmp_snprintf` with format `%.*Fg` renders `nprec`
significant digits, modelled as rounding to `nprec` significant decimal
digits; `mpf_set_str` parses the string back, modelled as the identity on
the denoted rational. -/

/-- A disk-cache database file: the `val[i]` and `prec[i]` records. -/
structure DbFile where
  val : ℕ → Option ℚ
  prec : ℕ → Option ℤ

/-- Rounding to `nprec` significant decimal digits: the model of
serializing with `%.*Fg` and parsing the string back. -/
def renderSig (nprec : ℤ) (v : ℚ) : ℚ :=
  if v = 0 then 0
  else
    let s : ℚ := (10 : ℚ) ^ (nprec - 1 - Int.log 10 |v|)
    round (v * s) / s

/-- `fp_cache_put`: open or create the database, write the rendered value
record and the precision record for `idx`, close. -/
def fp_cache_put (fs : ℕ → Option DbFile) (dbname : ℕ) (v : ℚ) (idx : ℕ)
    (nprec : ℤ) : ℕ → Option DbFile :=
  let db := (fs dbname).getD ⟨fun _ => none, fun _ => none⟩
  let dbNew : DbFile :=
    { val := fun i => if i = idx then some (renderSig nprec v) else db.val i
      prec := fun i => if i = idx then some nprec else db.prec i }
  fun nm => if nm = dbname then some dbNew else fs nm

/-- `fp_cache_get`: returns 0 (and writes nothing) if the database is
absent, the precision record is absent, the stored precision is below the
requested one, or the value record is absent; otherwise parses the stored
string into the output and returns the stored precision. -/
def fp_cache_get (fs : ℕ → Option DbFile) (dbname : ℕ) (idx : ℕ)
    (nprec : ℤ) : ℤ × Option ℚ :=
  match fs dbname with
  | none => (0, none)
  | some db =>
    match db.prec idx with
    | none => (0, none)
    | some have_prec =>
      if have_prec < nprec then (0, none)
      else
        match db.val idx with
        | none => (0, none)
        | some str => (have_prec, some str)

theorem renderSig_close (nprec : ℤ) (v : ℚ) :
    |renderSig nprec v - v| ≤ (10 : ℚ) ^ (Int.log 10 |v| + 1 - nprec) / 2 := by
  unfold renderSig
  split_ifs with h0
  · rw [h0]
    simp only [sub_zero, abs_zero]
    positivity
  · set e := Int.log 10 |v| with he
    set s : ℚ := (10 : ℚ) ^ (nprec - 1 - e) with hs
    have hspos : 0 < s := zpow_pos (by norm_num) _
    have hsne : s ≠ 0 := ne_of_gt hspos
    have hrw : round (v * s) / s - v = (round (v * s) - v * s) / s := by
      rw [sub_div, mul_div_cancel_right₀ _ hsne]
    rw [hrw, abs_div, abs_of_pos hspos]
    have hr : |(round (v * s) : ℚ) - v * s| ≤ 1 / 2 := by
      rw [abs_sub_comm]
      exact abs_sub_round (v * s)
    have hinv : s⁻¹ = (10 : ℚ) ^ (e + 1 - nprec) := by
      rw [hs, ← zpow_neg]
      congr 1
      ring
    calc |(round (v * s) : ℚ) - v * s| / s ≤ (1 / 2) / s :=
        (div_le_div_iff_of_pos_right hspos).mpr hr
      _ = s⁻¹ / 2 := by ring
      _ = (10 : ℚ) ^ (e + 1 - nprec) / 2 := by rw [hinv]

/-- C2: after `put` at precision `P`, a `get` demanding more than `P`
digits misses (returns 0, writes nothing); a `get` demanding at most `P`
returns the stored precision `P` and writes the round trip of the
original value through its `P`-significant-digit rendering, which agrees
with the original to half an ulp at those `P` digits; and a `get` against
an absent database, or an absent precision record, returns 0. -/
theorem db_cache_put_get_roundtrip :
    ∀ (fs : ℕ → Option DbFile) (dbname idx : ℕ) (v : ℚ) (P Pq : ℤ),
      (P < Pq →
        fp_cache_get (fp_cache_put fs dbname v idx P) dbname idx Pq =
          (0, none)) ∧
      (Pq ≤ P →
        fp_cache_get (fp_cache_put fs dbname v idx P) dbname idx Pq =
          (P, some (renderSig P v)) ∧
        |renderSig P v - v| ≤ (10 : ℚ) ^ (Int.log 10 |v| + 1 - P) / 2) ∧
      (∀ fs2 : ℕ → Option DbFile, fs2 dbname = none →
        fp_cache_get fs2 dbname idx Pq = (0, none)) ∧
      (∀ (fs2 : ℕ → Option DbFile) (db : DbFile), fs2 dbname = some db →
        db.prec idx = none → fp_cache_get fs2 dbname idx Pq = (0, none)) := by
  intro fs dbname idx v P Pq
  refine ⟨?_, ?_, ?_, ?_⟩
  · intro h
    simp [fp_cache_get, fp_cache_put, h]
  · intro h
    refine ⟨?_, renderSig_close P v⟩
    simp [fp_cache_get, fp_cache_put, not_lt.mpr h]
  · intro fs2 h
    simp [fp_cache_get, h]
  · intro fs2 db hdb hpr
    simp [fp_cache_get, hdb, hpr]

/-- C2 witness: a concrete put at precision 3 gates a get at precision 4
to a miss and serves a get at precision 2 with the stored precision. -/
theorem db_cache_put_get_roundtrip_witness :
    fp_cache_get (fp_cache_put (fun _ => none) 0 4 7 3) 0 7 4 = (0, none) ∧
    fp_cache_get (fp_cache_put (fun _ => none) 0 4 7 3) 0 7 2 =
      (3, some (renderSig 3 4)) ∧
    fp_cache_get (fun _ => none) 0 7 2 = (0, none) := by
  refine ⟨(db_cache_put_get_roundtrip (fun _ => none) 0 7 4 3 4).1 (by norm_num),
    ((db_cache_put_get_roundtrip (fun _ => none) 0 7 4 3 2).2.1 (by norm_num)).1,
    (db_cache_put_get_roundtrip (fun _ => none) 0 7 4 3 2).2.2.1
      (fun _ => none) rfl⟩

/-! ## The Riemann zeta dispatcher (`fp_zeta`)

The dispatcher is embedded with its two cache tiers (the in-memory
`fp_cache` and the disk cache above) and with the three evaluation
strategies it can select (brute force, exact even, Borwein) supplied as
oracles.  The conventional name of the zeta database file is modelled as
the identifier 0. -/

/-- The model of `ZETA_DB_NAME`. -/
def zetaDbName : ℕ := 0

/-- The caches `fp_zeta` can touch: its static ram cache and the disk
file system. -/
structure ZetaEnv where
  cache : FpCache
  fs : ℕ → Option DbFile

/-- Oracles for the three evaluators `fp_zeta` dispatches to:
`fp_zeta_brute`, `fp_zeta_even` and `fp_borwein_zeta`, each a function of
the argument and the precision. -/
structure ZetaEvals where
  brute : ℕ → ℤ → ℚ
  even : ℕ → ℤ → ℚ
  borwein : ℕ → ℤ → ℚ

/-- The observable outcome of one `fp_zeta` call: the value written into
the output, the state of both cache tiers on return, whether the
domain-error diagnostic was printed to standard error, and whether the
ram cache, the disk cache, or any evaluator was consulted. -/
structure ZetaOut where
  zeta : ℚ
  env : ZetaEnv
  domainErr : Bool
  ramChecked : Bool
  diskChecked : Bool
  evalUsed : Bool

/-- `fp_zeta_file_cache_put`: stores `zeta - 1` in the disk cache. -/
def fp_zeta_file_cache_put (fs : ℕ → Option DbFile) (z : ℚ) (s : ℕ)
    (prec : ℤ) : ℕ → Option DbFile :=
  fp_cache_put fs zetaDbName (z - 1) s prec

/-- `fp_zeta`: for `s < 2` (the argument is a C `unsigned int`, so this
means `s` is 0 or 1) prints a domain-error diagnostic, writes zero and
returns before either cache tier or any evaluator is touched.  Otherwise:
ram cache, then disk cache (adding back the `+1` offset and refreshing
the ram cache), then the brute-force / exact-even / Borwein selection,
storing the fresh value in both tiers. -/
def fp_zeta (ev : ZetaEvals) (env : ZetaEnv) (s : ℕ) (prec : ℤ) : ZetaOut :=
  if s < 2 then ⟨0, env, true, false, false, false⟩
  else
    let chk := fp_one_d_cache_check env.cache s
    if prec ≤ chk.1 then
      ⟨chk.2.cache.getD s 0, ⟨chk.2, env.fs⟩, false, true, false, false⟩
    else
      let dg := fp_cache_get env.fs zetaDbName s prec
      if dg.1 ≠ 0 then
        let z := dg.2.getD 0 + 1
        ⟨z, ⟨fp_one_d_cache_store chk.2 z s prec, env.fs⟩,
          false, true, true, false⟩
      else
        let marge : ℚ := (prec : ℚ) / ((s : ℚ) - 1)
        if (s % 2 = 1 ∧ marge < 33 / 10 ∧ 20 < s) ∨
           (s % 2 = 0 ∧ marge < 9 / 5 ∧ 20 < s) then
          let z := ev.brute s prec
          ⟨z, ⟨fp_one_d_cache_store chk.2 z s prec,
              fp_zeta_file_cache_put env.fs z s prec⟩, false, true, true, true⟩
        else if s % 2 = 0 then
          let z := ev.even s prec
          ⟨z, ⟨fp_one_d_cache_store chk.2 z s prec,
              fp_zeta_file_cache_put env.fs z s prec⟩, false, true, true, true⟩
        else
          let z := ev.borwein s prec
          ⟨z, ⟨fp_one_d_cache_store chk.2 z s prec,
              fp_zeta_file_cache_put env.fs z s prec⟩, false, true, true, true⟩

/-! ### C9: the domain error for s < 2 -/

/-- C9: for every `s < 2` (i.e. `s` = 0 or 1 for the unsigned argument),
`fp_zeta` prints the domain-error diagnostic, writes exactly zero, and
returns normally with both cache tiers untouched and unread and no
evaluator invoked. -/
theorem fp_zeta_domain_error :
    ∀ (ev : ZetaEvals) (env : ZetaEnv) (s : ℕ) (prec : ℤ), s < 2 →
      fp_zeta ev env s prec = ⟨0, env, true, false, false, false⟩ := by
  intro ev env s prec h
  unfold fp_zeta
  rw [if_pos h]

/-- Concrete evaluator oracles for the C9 witness. -/
def zEv0 : ZetaEvals := ⟨fun _ _ => 0, fun _ _ => 0, fun _ _ => 0⟩

/-- Concrete cache environment for the C9 witness. -/
def zEnv0 : ZetaEnv := ⟨fpCacheEmpty, fun _ => none⟩

/-- C9 witness: the theorem applied at `s = 1`. -/
theorem fp_zeta_domain_error_witness :
    fp_zeta zEv0 zEnv0 1 25 = ⟨0, zEnv0, true, false, false, false⟩ :=
  fp_zeta_domain_error zEv0 zEnv0 1 25 (by norm_num)

/-! ## Reduced log-gamma series (`mp-gamma.c`, `reduced_lngamma`)

The loop body is exact arithmetic on the values returned by `fp_zeta`
and `fp_euler_mascheroni`, so those subroutine results are oracle
parameters (`zeta n` is the value `fp_zeta` returns for argument `n` at
the call's precision, `gammaE` the Euler-Mascheroni value), and
`fp_epsilon(prec) = 10^-prec` is passed as `eps`.  The loop is fuelled;
`none` models a run that has not terminated within the fuel. -/

/-- The summation loop of `reduced_lngamma`: starting at `n = 2` with
`zn = z^2`, each step adds (for even `n`) or subtracts (for odd `n`) the
term `(zeta(n)-1) * z^n / n` and stops after the first term whose
magnitude falls below `eps` (that term is included). -/
def lngammaLoop (zeta : ℕ → ℚ) (eps z : ℚ) :
    ℕ → ℕ → ℚ → ℚ → Option (ℕ × ℚ)
  | 0, _, _, _ => none
  | fuel + 1, n, zn, gam =>
      let t := (zeta n - 1) * zn / (n : ℚ)
      let gam2 := if n % 2 = 1 then gam - t else gam + t
      if |t| < eps then some (n, gam2)
      else lngammaLoop zeta eps z fuel (n + 1) (zn * z) gam2

/-- `reduced_lngamma`: sets `z = x - 2`, runs the loop from `n = 2`, and
finally subtracts `(gammaE - 1) * z`.  Returns the final loop index and
the accumulated value before exponentiation. -/
def reduced_lngamma (zeta : ℕ → ℚ) (gammaE eps x : ℚ) (fuel : ℕ) :
    Option (ℕ × ℚ) :=
  (lngammaLoop zeta eps (x - 2) fuel 2 ((x - 2) * (x - 2)) 0).map
    fun p => (p.1, p.2 - (gammaE - 1) * (x - 2))

/-- The series exactly as the specification words it, with no
alternating sign: `z(1-gamma) + sum_{n=2}^{N} (zeta(n)-1) z^n / n`. -/
def lngammaSpecSeries (zeta : ℕ → ℚ) (gammaE z : ℚ) (N : ℕ) : ℚ :=
  z * (1 - gammaE) + ∑ n in Finset.Icc 2 N, (zeta n - 1) * z ^ n / (n : ℚ)

theorem signed_step (gam t : ℚ) (n : ℕ) :
    (if n % 2 = 1 then gam - t else gam + t) = gam + (-1 : ℚ) ^ n * t := by
  rcases Nat.even_or_odd n with h | h
  · rw [if_neg (by simp [Nat.even_iff.mp h]), h.neg_one_pow]
    ring
  · rw [if_pos (Nat.odd_iff.mp h), h.neg_one_pow]
    ring

theorem lngammaLoop_spec (zeta : ℕ → ℚ) (eps z : ℚ) :
    ∀ (fuel n : ℕ) (gam : ℚ) (N : ℕ) (g : ℚ),
      lngammaLoop zeta eps z fuel n (z ^ n) gam = some (N, g) →
      n ≤ N ∧
      g = gam +
        ∑ m in Finset.Icc n N, (-1 : ℚ) ^ m * (zeta m - 1) * z ^ m / (m : ℚ) ∧
      |(zeta N - 1) * z ^ N / (N : ℚ)| < eps ∧
      ∀ m, n ≤ m → m < N → ¬ |(zeta m - 1) * z ^ m / (m : ℚ)| < eps := by
  intro fuel
  induction fuel with
  | zero =>
    intro n gam N g h
    exact absurd h (by simp [lngammaLoop])
  | succ fuel ih =>
    intro n gam N g h
    simp only [lngammaLoop] at h
    by_cases ht : |(zeta n - 1) * z ^ n / (n : ℚ)| < eps
    · rw [if_pos ht] at h
      rw [Option.some_inj, Prod.ext_iff] at h
      obtain ⟨h1, h2⟩ := h
      dsimp only at h1 h2
      subst h1
      refine ⟨le_refl n, ?_, ht, fun m hm hm' => absurd hm (by omega)⟩
      rw [← h2, signed_step, Finset.Icc_self, Finset.sum_singleton]
      ring
    · rw [if_neg ht, ← pow_succ] at h
      obtain ⟨hle, hsum, hterm, hmin⟩ := ih (n + 1) _ N g h
      have hnN : n ≤ N := by omega
      refine ⟨hnN, ?_, hterm, ?_⟩
      · rw [hsum, signed_step]
        rw [← Finset.add_sum_Ioc_eq_sum_Icc hnN, ← Nat.Icc_succ_left]
        ring
      · intro m hm hm'
        rcases eq_or_lt_of_le hm with he | h'
        · rw [← he]
          exact ht
        · exact hmin m (by omega) hm'

/-- C5 (amended): when the loop terminates, the value accumulated before
exponentiation is `z(1-gamma) + sum_{n=2}^{N} (-1)^n (zeta(n)-1) z^n / n`
with `z = x - 2` — the A&S 6.1.33 series carries the alternating sign
`(-1)^n`, which the specification's transcription omits — where `N` is
the first index at which the term magnitude drops below `10^-prec`
(`eps`), that final term being included in the sum. -/
theorem reduced_lngamma_series :
    ∀ (zeta : ℕ → ℚ) (gammaE eps x : ℚ) (fuel N : ℕ) (g : ℚ),
      reduced_lngamma zeta gammaE eps x fuel = some (N, g) →
      2 ≤ N ∧
      g = (x - 2) * (1 - gammaE) +
        ∑ m in Finset.Icc 2 N,
          (-1 : ℚ) ^ m * (zeta m - 1) * (x - 2) ^ m / (m : ℚ) ∧
      |(zeta N - 1) * (x - 2) ^ N / (N : ℚ)| < eps ∧
      ∀ m, 2 ≤ m → m < N →
        ¬ |(zeta m - 1) * (x - 2) ^ m / (m : ℚ)| < eps := by
  intro zeta gammaE eps x fuel N g h
  unfold reduced_lngamma at h
  obtain ⟨⟨N2, g2⟩, hl, he⟩ := Option.map_eq_some'.mp h
  rw [Prod.ext_iff] at he
  obtain ⟨he1, he2⟩ := he
  dsimp only at he1 he2
  subst he1
  rw [show (x - 2) * (x - 2) = (x - 2) ^ 2 by ring] at hl
  obtain ⟨hle, hsum, hterm, hmin⟩ := lngammaLoop_spec zeta eps (x - 2) fuel 2 0 N2 g2 hl
  refine ⟨hle, ?_, hterm, hmin⟩
  rw [← he2, hsum]
  ring

/-- The `fp_zeta` return values used by the C5 counterexample and
witness: an oracle with `zeta(2) = 2` and `zeta(n) = 1 + 1/100` beyond. -/
def zetaCex : ℕ → ℚ := fun n => if n = 2 then 2 else 1 + 1 / 100

/-- C5 (counterexample): at `x = 3` (so `z = 1`), `eps = 1/10`, with the
zeta oracle `zetaCex` and Euler-Mascheroni oracle 0, the loop terminates
at `N = 3` with accumulated value `1 + 1/2 - 1/300` (the `n = 3` term is
subtracted), while the specification's unsigned series gives
`1 + 1/2 + 1/300`: the claim's formula fails on the code whenever an
odd-index term is nonzero. -/
theorem reduced_lngamma_spec_counterexample :
    reduced_lngamma zetaCex 0 (1 / 10) 3 20 = some (3, 1 + 1 / 2 - 1 / 300) ∧
    lngammaSpecSeries zetaCex 0 1 3 = 1 + 1 / 2 + 1 / 300 ∧
    (1 : ℚ) + 1 / 2 - 1 / 300 ≠ 1 + 1 / 2 + 1 / 300 := by
  refine ⟨?_, ?_, by norm_num⟩
  · norm_num [reduced_lngamma, lngammaLoop, zetaCex, abs_of_pos]
  · have hset : Finset.Icc (2 : ℕ) 3 = {2, 3} := by decide
    rw [lngammaSpecSeries, hset, Finset.sum_insert (by decide),
      Finset.sum_singleton]
    norm_num [zetaCex]

/-- C5 witness: the amended theorem applied to the concrete run at
`x = 3` with the `zetaCex` oracle. -/
theorem reduced_lngamma_series_witness :
    (1 : ℚ) + 1 / 2 - 1 / 300 =
      ((3 : ℚ) - 2) * (1 - 0) +
        ∑ m in Finset.Icc 2 3,
          (-1 : ℚ) ^ m * (zetaCex m - 1) * ((3 : ℚ) - 2) ^ m / (m : ℚ) ∧
    |(zetaCex 3 - 1) * ((3 : ℚ) - 2) ^ 3 / (3 : ℚ)| < 1 / 10 ∧
    ¬ |(zetaCex 2 - 1) * ((3 : ℚ) - 2) ^ 2 / (2 : ℚ)| < 1 / 10 := by
  have h := reduced_lngamma_series zetaCex 0 (1 / 10) 3 20 3
    (1 + 1 / 2 - 1 / 300) (by norm_num [reduced_lngamma, lngammaLoop, zetaCex, abs_of_pos])
  exact ⟨h.2.1, by simpa using h.2.2.1,
    by simpa using h.2.2.2 2 (le_refl 2) (by norm_num)⟩

/-! ## Newton series interpolation (`mp-euler.c`, `cpx_newton_series`)

The function evaluations `func(k+1, nprec)` are an oracle `f`;
`i_binomial_sequence` computes the exact integer binomial coefficient
(its caching layers are value-transparent), and `cpx_binomial` is
embedded from `mp-binomial.c` (falling-factorial product over the
factorial).  The loop index budget `maxterms` is carried as the
structural recursion fuel `remaining = maxterms - n`, exactly the C
`for (; n < maxterms; n++)` bound. -/

/-- `cpx_poch_rising`: `ess (ess+1) ... (ess+n-1)`, accumulating a term
whose real part is incremented by one each iteration. -/
def cpx_poch_rising (ess : Cpx) (n : ℕ) : Cpx :=
  if n = 0 then ⟨1, 0⟩
  else (List.range' 1 (n - 1)).foldl
    (fun acc (i : ℕ) => cpxMul acc ⟨ess.re + (i : ℚ), ess.im⟩) ess

/-- `cpx_binomial`: 1 for `k = 0`, else the rising pochhammer of
`ess - (k-1)` over `k` terms divided by `k!`. -/
def cpx_binomial (ess : Cpx) (k : ℕ) : Cpx :=
  if k = 0 then ⟨1, 0⟩
  else cpxDivScalar (cpx_poch_rising ⟨ess.re - ((k - 1 : ℕ) : ℚ), ess.im⟩ k)
    ((Nat.factorial k : ℚ))

/-- The termination tolerance: `1` right-shifted by
`(int)(2 * 3.322 * ndigits)` bits; the double constant `3.322` is the
exact rational `1661/500`. -/
def newtonEps (ndigits : ℕ) : ℚ := 1 / 2 ^ (1661 * ndigits / 250)

/-- The integer detection at the top of `cpx_newton_series`: when the
imaginary part of `z-1` is below `eps` (a signed comparison in the C
source) and the real part is within `eps` (squared) of its nearest
integer, that integer (through `mpf_get_ui`, clamped here at 0 for the
out-of-range negative case) becomes `is_int`; zero means "not an
integer". -/
def newtonIsInt (zeem1 : Cpx) (eps : ℚ) : ℕ :=
  if zeem1.im < eps then
    let a : ℤ := Int.floor (zeem1.re + 1 / 2)
    if (zeem1.re - (a : ℚ)) ^ 2 < eps then a.toNat else 0
  else 0

/-- The inner finite-difference sum
`sum_{k=0}^{n} (-1)^k C(n,k) f(k+1)`. -/
def newtonInner (f : ℕ → Cpx) (n : ℕ) : Cpx :=
  (List.range (n + 1)).foldl
    (fun term k =>
      let fval := cpxScale (f (k + 1)) ((Nat.choose n k : ℚ))
      cpxAdd term (if k % 2 = 1 then cpxNeg fval else fval))
    ⟨0, 0⟩

/-- The outcome of the outer loop: the returned term count, the
accumulated result, and whether the loop was exited by the
binomial-vanishing break (as opposed to the generic two-consecutive-
small-terms test or the `maxterms` bound). -/
structure NewtonResult where
  count : ℕ
  result : Cpx
  stoppedByBinomial : Bool
deriving DecidableEq

/-- The outer loop of `cpx_newton_series`.  At iteration `n` (with
`remaining = maxterms - n` as fuel): break when `is_int` is nonzero and
`n - 1 = is_int`; otherwise add the term
`(-1)^n C(z-1, n) * sum_k (-1)^k C(n,k) f(k+1)` and stop after two
consecutive iterations whose squared term-to-sum ratio is below `eps`. -/
def newtonLoop (f : ℕ → Cpx) (zeem1 : Cpx) (eps : ℚ) (is_int : ℕ) :
    ℕ → ℕ → Cpx → Bool → NewtonResult
  | 0, n, result, _ => ⟨n, result, false⟩
  | remaining + 1, n, result, almost =>
      if is_int ≠ 0 ∧ (n : ℤ) - 1 = (is_int : ℤ) then ⟨n, result, true⟩
      else
        let term1 := cpxMul (newtonInner f n) (cpx_binomial zeem1 n)
        let term := if n % 2 = 1 then cpxNeg term1 else term1
        let result2 := cpxAdd result term
        if cpxModSq term / cpxModSq result2 < eps then
          if almost then ⟨n, result2, false⟩
          else newtonLoop f zeem1 eps is_int remaining (n + 1) result2 true
        else newtonLoop f zeem1 eps is_int remaining (n + 1) result2 false

/-- `cpx_newton_series`. -/
def cpx_newton_series (f : ℕ → Cpx) (zee : Cpx) (ndigits maxterms : ℕ) :
    NewtonResult :=
  let zeem1 : Cpx := ⟨zee.re - 1, zee.im⟩
  let eps := newtonEps ndigits
  newtonLoop f zeem1 eps (newtonIsInt zeem1 eps) maxterms 0 ⟨0, 0⟩ false

theorem foldl_cpxMul_zero (x y : ℚ) (l : List ℕ) :
    l.foldl (fun acc (i : ℕ) => cpxMul acc ⟨x + (i : ℚ), y⟩) ⟨0, 0⟩ =
      ⟨0, 0⟩ := by
  induction l with
  | nil => rfl
  | cons a l ih =>
    rw [List.foldl_cons,
      show cpxMul ⟨0, 0⟩ ⟨x + (a : ℚ), y⟩ = ⟨0, 0⟩ from by simp [cpxMul]]
    exact ih

theorem newtonLoop_props (f : ℕ → Cpx) (zeem1 : Cpx) (eps : ℚ)
    (is_int : ℕ) :
    ∀ (remaining n : ℕ) (result : Cpx) (almost : Bool),
      ((newtonLoop f zeem1 eps is_int remaining n result almost).stoppedByBinomial =
          true →
        (newtonLoop f zeem1 eps is_int remaining n result almost).count =
          is_int + 1) ∧
      (1 ≤ is_int → n ≤ is_int + 1 →
        (newtonLoop f zeem1 eps is_int remaining n result almost).count ≤
          is_int + 1) ∧
      (is_int = 0 →
        (newtonLoop f zeem1 eps is_int remaining n result almost).stoppedByBinomial =
          false) := by
  intro remaining
  induction remaining with
  | zero =>
    intro n result almost
    exact ⟨fun h => absurd h (by simp [newtonLoop]), fun _ h => h,
      fun _ => rfl⟩
  | succ remaining ih =>
    intro n result almost
    simp only [newtonLoop]
    by_cases hbreak : is_int ≠ 0 ∧ (n : ℤ) - 1 = (is_int : ℤ)
    · obtain ⟨hb1, hb2⟩ := hbreak
      rw [if_pos ⟨hb1, hb2⟩]
      refine ⟨fun _ => ?_, fun _ _ => ?_, fun h0 => absurd h0 hb1⟩
      · show n = is_int + 1
        omega
      · show n ≤ is_int + 1
        omega
    · rw [if_neg hbreak]
      have hnn : n ≠ is_int + 1 ∨ is_int = 0 := by
        rcases not_and_or.mp hbreak with h' | h'
        · right
          exact not_not.mp h'
        · left
          omega
      split_ifs <;>
        first
        | exact ⟨fun h => absurd h (by simp), fun _ h => h, fun _ => rfl⟩
        | (refine ⟨(ih (n + 1) _ _).1,
            fun h1 h => (ih (n + 1) _ _).2.1 h1 ?_, (ih (n + 1) _ _).2.2⟩
           rcases hnn with h' | h' <;> omega)

theorem cpx_binomial_vanishes (m : ℕ) :
    cpx_binomial ⟨(m : ℚ), 0⟩ (m + 1) = ⟨0, 0⟩ := by
  unfold cpx_binomial
  rw [if_neg (by omega)]
  have hz : (⟨(⟨(m : ℚ), 0⟩ : Cpx).re - ((m + 1 - 1 : ℕ) : ℚ),
      (⟨(m : ℚ), 0⟩ : Cpx).im⟩ : Cpx) = ⟨0, 0⟩ := by
    simp
  rw [hz]
  unfold cpx_poch_rising
  rw [if_neg (by omega)]
  rw [foldl_cpxMul_zero]
  simp [cpxDivScalar]

/-- C7 (amended): when the detected nearest integer `m = is_int` of
`z - 1` is at least 1, the outer sum never proceeds past index `m + 1`
(the index at which `C(z-1, n)` first vanishes — exactly zero whenever
`z - 1` is exactly the integer `m`), and whenever the run is ended by
the binomial-vanishing break the count is exactly `m + 1`; but when the
detected integer is 0 — in particular for `z = 1`, i.e. `z - 1 = 0` —
the break is disabled (`is_int == 0` encodes "not an integer") and the
loop is ended by the generic two-consecutive-small-terms test instead. -/
theorem newton_series_integer_termination :
    ∀ (f : ℕ → Cpx) (zee : Cpx) (ndigits maxterms : ℕ),
      ((cpx_newton_series f zee ndigits maxterms).stoppedByBinomial = true →
        (cpx_newton_series f zee ndigits maxterms).count =
          newtonIsInt ⟨zee.re - 1, zee.im⟩ (newtonEps ndigits) + 1) ∧
      (1 ≤ newtonIsInt ⟨zee.re - 1, zee.im⟩ (newtonEps ndigits) →
        (cpx_newton_series f zee ndigits maxterms).count ≤
          newtonIsInt ⟨zee.re - 1, zee.im⟩ (newtonEps ndigits) + 1) ∧
      (newtonIsInt ⟨zee.re - 1, zee.im⟩ (newtonEps ndigits) = 0 →
        (cpx_newton_series f zee ndigits maxterms).stoppedByBinomial = false) ∧
      ∀ m : ℕ, cpx_binomial ⟨(m : ℚ), 0⟩ (m + 1) = ⟨0, 0⟩ := by
  intro f zee ndigits maxterms
  obtain ⟨h1, h2, h3⟩ := newtonLoop_props f ⟨zee.re - 1, zee.im⟩
    (newtonEps ndigits)
    (newtonIsInt ⟨zee.re - 1, zee.im⟩ (newtonEps ndigits))
    maxterms 0 ⟨0, 0⟩ false
  exact ⟨h1, fun hm => h2 hm (by omega), h3, cpx_binomial_vanishes⟩

/-- The oracle `f(k) = 1` for the C7 counterexample. -/
def fOne : ℕ → Cpx := fun _ => ⟨1, 0⟩

/-- C7 (counterexample): at `z = 1` (so `z - 1 = 0`, explicitly within
the claim's scope), `C(z-1, n)` first becomes exactly zero at index 1,
but the code's run sums through index 2 and stops by the generic
convergence test, not at the vanishing index: the detected integer 0 is
conflated with "not an integer" and the binomial break never fires. -/
theorem newton_series_z_one_counterexample :
    (cpx_newton_series fOne ⟨1, 0⟩ 5 10).count = 2 ∧
    (cpx_newton_series fOne ⟨1, 0⟩ 5 10).stoppedByBinomial = false ∧
    cpx_binomial ⟨(1 : ℚ) - 1, 0⟩ 1 = ⟨0, 0⟩ ∧ (2 : ℕ) ≠ 1 := by
  have hm : newtonIsInt ⟨(1 : ℚ) - 1, 0⟩ (newtonEps 5) = 0 := by
    unfold newtonIsInt newtonEps
    rw [if_pos (by norm_num)]
    rw [show Int.floor (((1 : ℚ) - 1) + 1 / 2) = 0 from by
      rw [Int.floor_eq_iff] <;> norm_num]
    rw [if_pos (by norm_num)]
    rfl
  refine ⟨?_, ?_, ?_, by norm_num⟩
  · show (newtonLoop fOne ⟨(1 : ℚ) - 1, 0⟩ (newtonEps 5)
      (newtonIsInt ⟨(1 : ℚ) - 1, 0⟩ (newtonEps 5)) 10 0 ⟨0, 0⟩ false).count = 2
    rw [hm]
    have hr1 : List.range 1 = [0] := rfl
    have hr2 : List.range 2 = [0, 1] := rfl
    have hr3 : List.range 3 = [0, 1, 2] := rfl
    have hr4 : List.range 4 = [0, 1, 2, 3] := rfl
    have hq0 : List.range' 1 0 = [] := rfl
    have hq1 : List.range' 1 1 = [1] := rfl
    have hq2 : List.range' 1 2 = [1, 2] := rfl
    have hq3 : List.range' 1 3 = [1, 2, 3] := rfl
    norm_num [newtonLoop, newtonInner, cpx_binomial, cpx_poch_rising,
      cpxMul, cpxAdd, cpxNeg, cpxScale, cpxModSq, cpxDivScalar, fOne,
      newtonEps, hr1, hr2, hr3, hr4, hq0, hq1, hq2, hq3,
      List.foldl_cons, List.foldl_nil]
  · show (newtonLoop fOne ⟨(1 : ℚ) - 1, 0⟩ (newtonEps 5)
      (newtonIsInt ⟨(1 : ℚ) - 1, 0⟩ (newtonEps 5)) 10 0 ⟨0, 0⟩
        false).stoppedByBinomial = false
    rw [hm]
    have hr1 : List.range 1 = [0] := rfl
    have hr2 : List.range 2 = [0, 1] := rfl
    have hr3 : List.range 3 = [0, 1, 2] := rfl
    have hr4 : List.range 4 = [0, 1, 2, 3] := rfl
    have hq0 : List.range' 1 0 = [] := rfl
    have hq1 : List.range' 1 1 = [1] := rfl
    have hq2 : List.range' 1 2 = [1, 2] := rfl
    have hq3 : List.range' 1 3 = [1, 2, 3] := rfl
    norm_num [newtonLoop, newtonInner, cpx_binomial, cpx_poch_rising,
      cpxMul, cpxAdd, cpxNeg, cpxScale, cpxModSq, cpxDivScalar, fOne,
      newtonEps, hr1, hr2, hr3, hr4, hq0, hq1, hq2, hq3,
      List.foldl_cons, List.foldl_nil]
  · unfold cpx_binomial
    rw [if_neg (by omega)]
    unfold cpx_poch_rising
    rw [if_neg (by omega)]
    simp [cpxDivScalar]

/-- The oracle `f(k) = 2^(k-1)` for the C7 witness. -/
def fPow2 : ℕ → Cpx := fun k => ⟨(2 : ℚ) ^ (k - 1), 0⟩

set_option maxRecDepth 8000 in
/-- C7 witness: the amended theorem applied at `z = 4` (detected integer
3) with `f(k) = 2^(k-1)`: the run stops by the binomial break, at count
exactly `3 + 1 = 4`. -/
theorem newton_series_integer_termination_witness :
    (cpx_newton_series fPow2 ⟨4, 0⟩ 5 30).stoppedByBinomial = true ∧
    (cpx_newton_series fPow2 ⟨4, 0⟩ 5 30).count =
      newtonIsInt ⟨(4 : ℚ) - 1, 0⟩ (newtonEps 5) + 1 ∧
    (cpx_newton_series fPow2 ⟨4, 0⟩ 5 30).count ≤
      newtonIsInt ⟨(4 : ℚ) - 1, 0⟩ (newtonEps 5) + 1 := by
  have hm : newtonIsInt ⟨(4 : ℚ) - 1, 0⟩ (newtonEps 5) = 3 := by
    unfold newtonIsInt newtonEps
    rw [if_pos (by norm_num)]
    rw [show Int.floor (((4 : ℚ) - 1) + 1 / 2) = 3 from by
      rw [Int.floor_eq_iff] <;> norm_num]
    rw [if_pos (by norm_num)]
    rfl
  have hstop : (cpx_newton_series fPow2 ⟨4, 0⟩ 5 30).stoppedByBinomial =
      true := by
    show (newtonLoop fPow2 ⟨(4 : ℚ) - 1, 0⟩ (newtonEps 5)
      (newtonIsInt ⟨(4 : ℚ) - 1, 0⟩ (newtonEps 5)) 30 0 ⟨0, 0⟩
        false).stoppedByBinomial = true
    rw [hm]
    have hr1 : List.range 1 = [0] := rfl
    have hr2 : List.range 2 = [0, 1] := rfl
    have hr3 : List.range 3 = [0, 1, 2] := rfl
    have hr4 : List.range 4 = [0, 1, 2, 3] := rfl
    have hq0 : List.range' 1 0 = [] := rfl
    have hq1 : List.range' 1 1 = [1] := rfl
    have hq2 : List.range' 1 2 = [1, 2] := rfl
    have hq3 : List.range' 1 3 = [1, 2, 3] := rfl
    norm_num [newtonLoop, newtonInner, cpx_binomial, cpx_poch_rising,
      cpxMul, cpxAdd, cpxNeg, cpxScale, cpxModSq, cpxDivScalar, fPow2,
      newtonEps, hr1, hr2, hr3, hr4, hq0, hq1, hq2, hq3,
      List.foldl_cons, List.foldl_nil]
  have h := newton_series_integer_termination fPow2 ⟨4, 0⟩ 5 30
  exact ⟨hstop, h.1 hstop,
    h.2.1 ((by norm_num : (1 : ℕ) ≤ 3).trans_eq hm.symm)⟩

/-! ## Adapted Powell zero finder (`mp-zerofind.c`, `cpx_find_zero_quad`)

One outer iteration of the search loop is embedded, with the caller's
function as an oracle (`ABSVAL` is `cpx_mod_sq`, exactly representable).
The state carried across iterations consists of the center `s0`, the two
direction vectors `na`/`nb`, the working points `sa`/`sb` (function-scope
locals, zero-initialized by `cpx_init2`), and the best modulus-squared
`f0`.  The double constants `1.618` and `0.5` are modelled as the
rationals `809/500` and `1/2`. -/

/-- `quad_min`: three-point parabola fit; when the denominator is exactly
zero it falls back to the middle abscissa `b`. -/
def quad_min (a b c fa fb fc : ℚ) : ℚ :=
  let ba := b - a
  let bc := b - c
  let fba := fb - fa
  let fbc := fb - fc
  let fbc1 := fbc * ba
  let fba1 := fba * bc
  let deno := fbc1 - fba1
  if deno ≠ 0 then b - (fbc1 * ba - fba1 * bc) / deno / 2
  else b

/-- The per-iteration state of `cpx_find_zero_quad`. -/
structure PowellSt where
  s0 : Cpx
  na : Cpx
  nb : Cpx
  sa : Cpx
  sb : Cpx
  f0 : ℚ
deriving DecidableEq

/-- The direction-`a` pass (lines 223-296 of `mp-zerofind.c`): probes
`s0 ± na`, fits the parabola, steps to the fitted point if it improves on
the center (halving `na` after the move), and otherwise keeps the best of
the probe points and scales `na` by 1.618 when a probe improved, by 0.5
when none did.  Returns the updated state and the `done1` flag. -/
def powell_pass_a (func : Cpx → Cpx) (eps : ℚ) (st : PowellSt) :
    PowellSt × Bool :=
  if cpxModSq st.na < eps then ({ st with sa := st.s0 }, true)
  else
    let s1 := cpxAdd st.s0 st.na
    let s2 := cpxSub st.s0 st.na
    let f1 := cpxModSq (func s1)
    let f2 := cpxModSq (func s2)
    let loc := quad_min 0 1 (-1) st.f0 f1 f2
    let f3 := cpxModSq (func (cpxAdd st.s0 (cpxScale st.na loc)))
    if f3 < st.f0 then
      if eps < |loc| then
        let na2 := cpxScale st.na loc
        ({ st with
            na := cpxScale na2 (1 / 2)
            sa := cpxAdd st.s0 na2
            f0 := f3 }, false)
      else ({ st with sa := st.s0, f0 := f3 }, true)
    else
      let r1 := if f1 < st.f0 then (s1, f1, true) else (st.sa, st.f0, false)
      let r2 := if f2 < r1.2.1 then (s2, f2, true) else r1
      ({ st with
          sa := r2.1
          f0 := r2.2.1
          na := cpxScale st.na (if r2.2.2 then 809 / 500 else 1 / 2) }, false)

/-- The direction-`b` pass (lines 299-370): identical in structure to the
`a` pass with `sa` as center and `nb` as probe direction — except that in
the no-improvement branch the scaling at lines 366/368 is applied to
`na`, not `nb`, exactly as in the source. -/
def powell_pass_b (func : Cpx → Cpx) (eps : ℚ) (st : PowellSt) :
    PowellSt × Bool :=
  if cpxModSq st.nb < eps then ({ st with sb := st.sa }, true)
  else
    let s1 := cpxAdd st.sa st.nb
    let s2 := cpxSub st.sa st.nb
    let f1 := cpxModSq (func s1)
    let f2 := cpxModSq (func s2)
    let loc := quad_min 0 1 (-1) st.f0 f1 f2
    let f3 := cpxModSq (func (cpxAdd st.sa (cpxScale st.nb loc)))
    if f3 < st.f0 then
      if eps < |loc| then
        let nb2 := cpxScale st.nb loc
        ({ st with
            nb := cpxScale nb2 (1 / 2)
            sb := cpxAdd st.sa nb2
            f0 := f3 }, false)
      else ({ st with sb := st.sa, f0 := f3 }, true)
    else
      let r1 := if f1 < st.f0 then (s1, f1, true) else (st.sb, st.f0, false)
      let r2 := if f2 < r1.2.1 then (s2, f2, true) else r1
      ({ st with
          sb := r2.1
          f0 := r2.2.1
          na := cpxScale st.na (if r2.2.2 then 809 / 500 else 1 / 2) }, false)

/-- One iteration of the outer loop of `cpx_find_zero_quad`: the `a`
pass, the `b` pass on the updated state, then `s0 := sb`.  Returns the
new state and the two done flags. -/
def powell_iter (func : Cpx → Cpx) (eps : ℚ) (st : PowellSt) :
    PowellSt × Bool × Bool :=
  let ra := powell_pass_a func eps st
  let rb := powell_pass_b func eps ra.1
  ({ rb.1 with s0 := rb.1.sb }, ra.2, rb.2)

/-- The constant function oracle for the C8 failing input. -/
def funcConst : Cpx → Cpx := fun _ => ⟨1, 0⟩

/-- The C8 failing-input state: center at the origin, unit direction
vectors, `f0 = |func(s0)|^2 = 1`. -/
def powellSt0 : PowellSt := ⟨⟨0, 0⟩, ⟨1, 0⟩, ⟨0, 1⟩, ⟨0, 0⟩, ⟨0, 0⟩, 1⟩

/-- C8 (failing input): with a constant function neither pass improves
on the center and no probe point improves, so the claim says each pass
shrinks its own direction vector by 0.5 (`na' = na/2`, `nb' = nb/2`).
The code's `a` pass does halve `na`, but its `b` pass halves `na` again
and leaves `nb` untouched: after one iteration `na` has been scaled
twice (to 1/4) and `nb` not at all. -/
theorem powell_b_pass_scales_na :
    (powell_pass_a funcConst (1 / 2 ^ 53) powellSt0).1.na = ⟨1 / 2, 0⟩ ∧
    (powell_pass_a funcConst (1 / 2 ^ 53) powellSt0).1.nb = ⟨0, 1⟩ ∧
    (powell_iter funcConst (1 / 2 ^ 53) powellSt0).1.na = ⟨1 / 4, 0⟩ ∧
    (powell_iter funcConst (1 / 2 ^ 53) powellSt0).1.nb = ⟨0, 1⟩ := by
  refine ⟨?_, ?_, ?_, ?_⟩ <;>
    norm_num [powell_iter, powell_pass_a, powell_pass_b, quad_min,
      funcConst, powellSt0, cpxAdd, cpxSub, cpxScale, cpxModSq]

/-! ## Polylogarithm domain navigation (`recurse_away_polylog`,
`recurse_towards_polylog`, `cpx_polylog`, `cpx_polylog_away`)

The two mutually recursive strategies are embedded as one function
tagged by a Boolean (`true` = away, `false` = towards).  The branch data
computed in C doubles (`polylog_get_zone`, `polylog_terms_est`, the
`log(mod) < 6.28` test), the Borwein evaluation, the inversion-formula
evaluation, the complex square root, and the scale factors `2^(1-s)` /
`2^(s-1)` are oracle parameters; `mod = |z|^2` is exact.  The embedding
instruments each call with the diagnostics printed to standard error
(`errs`) and with the (strategy, depth) pairs at which a call proceeds
past its guards and does real work (`runs`). -/

/-- The oracle bundle for the polylog recursion. -/
structure PolyOracle where
  den : Cpx → ℚ
  nterms : Cpx → ℤ
  maxterms : ℤ
  logModSmall : Cpx → Bool
  borwein : Cpx → Cpx
  invert : Cpx → Cpx
  sqrtz : Cpx → Cpx
  pow21s : Cpx
  pow2sm1 : Cpx

/-- The instrumented outcome of a `recurse_*_polylog` call: the returned
status (`0` = value computed, `1` = failure), the value written into the
output parameter (`none` when the C code leaves it unwritten), the
excessive-recursion diagnostics printed to standard error (tagged by
strategy and the offending depth), and the depths at which each strategy
executed its body. -/
structure PlogResult where
  rc : ℕ
  val : Option Cpx
  errs : List (Bool × ℕ)
  runs : List (Bool × ℕ)
deriving DecidableEq

/-- `recurse_away_polylog` (`true`) and `recurse_towards_polylog`
(`false`).  Away: bail silently when `25 < |z|^2`; bail with a stderr
diagnostic when `9 < depth`; then either split via the duplication
formula (two recursive away calls at `z^2` and `-z`, combined as
`pp * 2^(1-s) - pn`) or evaluate the Borwein core.  Towards: bail with a
diagnostic when `5 < depth`; then Borwein core if in zone, else delegate
to away inside the unit disk, else the inversion formula (which does not
recurse), else the square-root splitting (two recursive towards calls).
All recursive calls receive the incremented depth. -/
def plog_run (o : PolyOracle) : Bool → Cpx → ℕ → PlogResult
  | true, z, d =>
    if 25 < cpxModSq z then ⟨1, none, [], []⟩
    else if h9 : 9 < d then ⟨1, none, [(true, d)], []⟩
    else
      if 3 / 2 < o.den z ∨ o.nterms z > o.maxterms then
        let r1 := plog_run o true (cpxMul z z) (d + 1)
        if r1.rc ≠ 0 then ⟨r1.rc, none, r1.errs, (true, d) :: r1.runs⟩
        else
          let r2 := plog_run o true (cpxNeg z) (d + 1)
          if r2.rc ≠ 0 then
            ⟨r2.rc, none, r1.errs ++ r2.errs,
              (true, d) :: (r1.runs ++ r2.runs)⟩
          else
            ⟨0, some (cpxSub (cpxMul (r1.val.getD ⟨0, 0⟩) o.pow21s)
                (r2.val.getD ⟨0, 0⟩)),
              r1.errs ++ r2.errs, (true, d) :: (r1.runs ++ r2.runs)⟩
      else ⟨0, some (o.borwein z), [], [(true, d)]⟩
  | false, z, d =>
    if h5 : 5 < d then ⟨1, none, [(false, d)], []⟩
    else
      if o.den z < 3 / 2 ∧ o.nterms z < o.maxterms then
        ⟨0, some (o.borwein z), [], [(false, d)]⟩
      else if cpxModSq z ≤ 1 then
        let r := plog_run o true z (d + 1)
        ⟨r.rc, r.val, r.errs, (false, d) :: r.runs⟩
      else if o.logModSmall z then
        ⟨0, some (o.invert z), [], [(false, d)]⟩
      else
        let zr := o.sqrtz z
        let r1 := plog_run o false zr (d + 1)
        if r1.rc ≠ 0 then ⟨r1.rc, none, r1.errs, (false, d) :: r1.runs⟩
        else
          let r2 := plog_run o false (cpxNeg zr) (d + 1)
          if r2.rc ≠ 0 then
            ⟨r2.rc, none, r1.errs ++ r2.errs,
              (false, d) :: (r1.runs ++ r2.runs)⟩
          else
            ⟨0, some (cpxMul (cpxAdd (r1.val.getD ⟨0, 0⟩)
                (r2.val.getD ⟨0, 0⟩)) o.pow2sm1),
              r1.errs ++ r2.errs, (false, d) :: (r1.runs ++ r2.runs)⟩
  termination_by b z d => 10 - d
  decreasing_by all_goals (simp_wf; omega)

/-- `cpx_polylog`: the towards strategy from depth 0; on failure the
result is set to zero and the non-zero status returned. -/
def cpx_polylog (o : PolyOracle) (z : Cpx) : ℕ × Cpx × PlogResult :=
  let r := plog_run o false z 0
  if r.rc ≠ 0 then (r.rc, ⟨0, 0⟩, r) else (0, r.val.getD ⟨0, 0⟩, r)

/-- `cpx_polylog_away`: the away strategy from depth 0, same failure
convention. -/
def cpx_polylog_away (o : PolyOracle) (z : Cpx) : ℕ × Cpx × PlogResult :=
  let r := plog_run o true z 0
  if r.rc ≠ 0 then (r.rc, ⟨0, 0⟩, r) else (0, r.val.getD ⟨0, 0⟩, r)

theorem plog_runs_bounded (o : PolyOracle) :
    ∀ (k d : ℕ), 10 - d ≤ k → ∀ (b : Bool) (z : Cpx) (p : Bool × ℕ),
      p ∈ (plog_run o b z d).runs →
      (p.1 = true → p.2 ≤ 9) ∧ (p.1 = false → p.2 ≤ 5) := by
  intro k
  induction k with
  | zero =>
    intro d hk b z p hp
    have hd : 10 ≤ d := by omega
    cases b
    · rw [plog_run] at hp
      rw [dif_pos (by omega : 5 < d)] at hp
      simp at hp
    · rw [plog_run] at hp
      by_cases hmz : 25 < cpxModSq z
      · rw [if_pos hmz] at hp
        simp at hp
      · rw [if_neg hmz, dif_pos (by omega : 9 < d)] at hp
        simp at hp
  | succ k ih =>
    intro d hk b z p hp
    have hrec : 10 - (d + 1) ≤ k := by omega
    cases b
    · rw [plog_run] at hp
      by_cases h5 : 5 < d
      · rw [dif_pos h5] at hp
        simp at hp
      · rw [dif_neg h5] at hp
        by_cases hz1 : o.den z < 3 / 2 ∧ o.nterms z < o.maxterms
        · rw [if_pos hz1] at hp
          simp at hp
          rw [hp]
          exact ⟨by simp, fun _ => by omega⟩
        · rw [if_neg hz1] at hp
          by_cases hz2 : cpxModSq z ≤ 1
          · rw [if_pos hz2] at hp
            simp only [List.mem_cons] at hp
            rcases hp with hp | hp
            · rw [hp]
              exact ⟨by simp, fun _ => by omega⟩
            · exact ih (d + 1) hrec true z p hp
          · rw [if_neg hz2] at hp
            by_cases hz3 : o.logModSmall z = true
            · rw [if_pos hz3] at hp
              simp at hp
              rw [hp]
              exact ⟨by simp, fun _ => by omega⟩
            · rw [if_neg hz3] at hp
              by_cases hc1 : (plog_run o false (o.sqrtz z) (d + 1)).rc ≠ 0
              · rw [if_pos hc1] at hp
                simp only [List.mem_cons] at hp
                rcases hp with hp | hp
                · rw [hp]
                  exact ⟨by simp, fun _ => by omega⟩
                · exact ih (d + 1) hrec false (o.sqrtz z) p hp
              · rw [if_neg hc1] at hp
                by_cases hc2 :
                  (plog_run o false (cpxNeg (o.sqrtz z)) (d + 1)).rc ≠ 0 <;>
                  [rw [if_pos hc2] at hp; rw [if_neg hc2] at hp] <;>
                · simp only [List.mem_cons, List.mem_append] at hp
                  rcases hp with hp | hp | hp
                  · rw [hp]
                    exact ⟨by simp, fun _ => by omega⟩
                  · exact ih (d + 1) hrec false (o.sqrtz z) p hp
                  · exact ih (d + 1) hrec false (cpxNeg (o.sqrtz z)) p hp
    · rw [plog_run] at hp
      by_cases hmz : 25 < cpxModSq z
      · rw [if_pos hmz] at hp
        simp at hp
      · rw [if_neg hmz]  at hp
        by_cases h9 : 9 < d
        · rw [dif_pos h9] at hp
          simp at hp
        · rw [dif_neg h9] at hp
          by_cases hz1 : 3 / 2 < o.den z ∨ o.nterms z > o.maxterms
          · rw [if_pos hz1] at hp
            by_cases hc1 : (plog_run o true (cpxMul z z) (d + 1)).rc ≠ 0
            · rw [if_pos hc1] at hp
              simp only [List.mem_cons] at hp
              rcases hp with hp | hp
              · rw [hp]
                exact ⟨fun _ => by omega, by simp⟩
              · exact ih (d + 1) hrec true (cpxMul z z) p hp
            · rw [if_neg hc1] at hp
              by_cases hc2 : (plog_run o true (cpxNeg z) (d + 1)).rc ≠ 0 <;>
                [rw [if_pos hc2] at hp; rw [if_neg hc2] at hp] <;>
              · simp only [List.mem_cons, List.mem_append] at hp
                rcases hp with hp | hp | hp
                · rw [hp]
                  exact ⟨fun _ => by omega, by simp⟩
                · exact ih (d + 1) hrec true (cpxMul z z) p hp
                · exact ih (d + 1) hrec true (cpxNeg z) p hp
          · rw [if_neg hz1] at hp
            simp at hp
            rw [hp]
            exact ⟨fun _ => by omega, by simp⟩

/-- C6 (amended): the away strategy never executes its body at depth
above 9 and the towards strategy never above 5, for every oracle, input
and starting depth; a towards call that exceeds its bound always prints
the stderr diagnostic and returns status 1; an away call that exceeds
its bound returns status 1, and prints the diagnostic whenever
`|z|^2 <= 25` — but when `|z|^2 > 25` the modulus check comes first and
the call fails silently, with no diagnostic; and on any non-zero status
the top-level entry points write an exactly-zero result. -/
theorem polylog_recursion_depth_bounds :
    (∀ (o : PolyOracle) (b : Bool) (z : Cpx) (d : ℕ) (p : Bool × ℕ),
      p ∈ (plog_run o b z d).runs →
      (p.1 = true → p.2 ≤ 9) ∧ (p.1 = false → p.2 ≤ 5)) ∧
    (∀ (o : PolyOracle) (z : Cpx) (d : ℕ), 9 < d → cpxModSq z ≤ 25 →
      plog_run o true z d = ⟨1, none, [(true, d)], []⟩) ∧
    (∀ (o : PolyOracle) (z : Cpx) (d : ℕ), 5 < d →
      plog_run o false z d = ⟨1, none, [(false, d)], []⟩) ∧
    (∀ (o : PolyOracle) (z : Cpx) (d : ℕ), 9 < d →
      (plog_run o true z d).rc = 1) ∧
    (∀ (o : PolyOracle) (z : Cpx), (cpx_polylog o z).1 ≠ 0 →
      (cpx_polylog o z).2.1 = ⟨0, 0⟩) ∧
    (∀ (o : PolyOracle) (z : Cpx), (cpx_polylog_away o z).1 ≠ 0 →
      (cpx_polylog_away o z).2.1 = ⟨0, 0⟩) := by
  refine ⟨fun o b z d => plog_runs_bounded o (10 - d) d (le_refl _) b z,
    ?_, ?_, ?_, ?_, ?_⟩
  · intro o z d hd hmz
    rw [plog_run, if_neg (not_lt.mpr hmz), dif_pos hd]
  · intro o z d hd
    rw [plog_run, dif_pos hd]
  · intro o z d hd
    rw [plog_run]
    by_cases hmz : 25 < cpxModSq z
    · rw [if_pos hmz]
    · rw [if_neg hmz, dif_pos hd]
  · intro o z h
    unfold cpx_polylog at h ⊢
    by_cases hrc : (plog_run o false z 0).rc ≠ 0
    · rw [if_pos hrc]
    · rw [if_neg hrc] at h
      exact absurd rfl h
  · intro o z h
    unfold cpx_polylog_away at h ⊢
    by_cases hrc : (plog_run o true z 0).rc ≠ 0
    · rw [if_pos hrc]
    · rw [if_neg hrc] at h
      exact absurd rfl h

/-- A concrete oracle that always splits: the C6 counterexample and
witness instantiations. -/
def polyO : PolyOracle :=
  ⟨fun _ => 2, fun _ => 10, 100, fun _ => false, fun _ => ⟨0, 0⟩,
    fun _ => ⟨0, 0⟩, fun z => z, ⟨1, 0⟩, ⟨1, 0⟩⟩

/-- A concrete oracle in the Borwein zone. -/
def polyB : PolyOracle :=
  ⟨fun _ => 1, fun _ => 0, 100, fun _ => false, fun _ => ⟨0, 0⟩,
    fun _ => ⟨0, 0⟩, fun z => z, ⟨1, 0⟩, ⟨1, 0⟩⟩

/-- C6 (counterexample): an away call that exceeds the depth bound
(depth 10) at a point of squared modulus above 25 returns non-zero but
prints nothing — the claim says every call exceeding its bound prints a
diagnostic to standard error.  (Reachable from `cpx_polylog_away`: the
duplication recursion squares the argument, so a chain can first exceed
the modulus cut at a depth above the bound.) -/
theorem polylog_away_silent_beyond_bound :
    plog_run polyO true ⟨6, 0⟩ 10 = ⟨1, none, [], []⟩ ∧
    ([] : List (Bool × ℕ)) ≠ [(true, 10)] := by
  constructor
  · rw [plog_run]
    norm_num [cpxModSq]
  · simp

/-- C6 witness: the amended theorem applied at concrete inputs — the
in-modulus away bail at depth 10 with its diagnostic, the towards bail
at depth 6 with its diagnostic, and the run-depth bound at a concrete
Borwein-zone execution. -/
theorem polylog_recursion_depth_bounds_witness :
    plog_run polyO true ⟨1, 0⟩ 10 = ⟨1, none, [(true, 10)], []⟩ ∧
    plog_run polyO false ⟨1, 0⟩ 6 = ⟨1, none, [(false, 6)], []⟩ ∧
    ((true, 0).1 = true → (true, 0).2 ≤ 9) := by
  refine ⟨polylog_recursion_depth_bounds.2.1 polyO ⟨1, 0⟩ 10 (by norm_num)
      (by norm_num [cpxModSq]),
    polylog_recursion_depth_bounds.2.2.1 polyO ⟨1, 0⟩ 6 (by norm_num),
    (polylog_recursion_depth_bounds.1 polyB true ⟨1, 0⟩ 0 (true, 0) ?_).1⟩
  rw [plog_run]
  norm_num [cpxModSq, polyB]

end Anant
